import Mathlib

/-!
# The tag-indexed header store of `head` (signature table)

A shallow embedding of `src/head/bytes.go`, `src/head/header.go`,
`src/head/signature.go` and `src/head/lead.go`.

Conventions of the embedding.

* `uint32` and `uint8` values are natural numbers; every operation that can
  wrap in Go carries an explicit `% 2 ^ 32` (resp. `% 256`).
* A byte slice and a Go string are both a `List Nat` of bytes; `len` is
  `List.length` (a Go `int`, 64 bits wide, which the length of a slice never
  overflows).
* A `*dbEntry` is embedded by value: an entry owns its index record and its
  payload, as every constructor of the package guarantees.
* A Go `panic` is recorded in the `panic` field of an `Outcome`, next to the
  state the receiver is in at the moment of the panic.
* The text of an error or panic is a Go string, a sequence of bytes; it is
  written as a `String` with one character per byte, the character whose code
  is the byte, so that an ASCII literal of the source stands for itself.
* An `io.Writer` is a state-passing `Write`; the `int64` running totals of the
  `WriteTo` methods are integers (a total stays far below `2 ^ 63` for every
  table that fits in memory).
-/

namespace head

/-! ## bytes.go -/

/-- Go conversion `uint8(x)`. -/
def uint8 (x : Nat) : Nat := x % 256

/-- Go conversion `uint32(x)` of a non-negative integer. -/
def uint32 (x : Nat) : Nat := x % 2 ^ 32

/-- Source `uint16ToBytes`. -/
def uint16ToBytes (i : Nat) : List Nat :=
  [uint8 (i >>> 8), uint8 (i &&& 0xff)]

/-- Source `uint32ToBytes`. -/
def uint32ToBytes (i : Nat) : List Nat :=
  [uint8 (i >>> 24), uint8 ((i >>> 16) &&& 0xff), uint8 ((i >>> 8) &&& 0xff), uint8 (i &&& 0xff)]

/-! ## header.go : data model -/

/-- Source `dbHeader`. -/
structure dbHeader where
  magic : List Nat
  version : Nat
  reserved : List Nat
  nIndex : Nat
  hSize : Nat
deriving DecidableEq, Repr

/-- Source `newDbHeader`; `nIndex` and `hSize` take Go's zero value. -/
def newDbHeader : dbHeader :=
  { magic := [0x8e, 0xad, 0xe8], version := 1, reserved := [0x0, 0x0, 0x0, 0x0],
    nIndex := 0, hSize := 0 }

/-- Source `dbHeaderIndex`. -/
structure dbHeaderIndex where
  tag : Nat
  dataType : Nat
  offset : Nat
  count : Nat
deriving DecidableEq, Repr

/-- The implementers of the source interface `dbPayload`. -/
inductive dbPayload where
  | binaryPayload (data : List Nat)
  | uint32Payload (data : Nat)
  | stringPayload (data : List Nat)
deriving DecidableEq, Repr

/-- Source `binaryPayload.size`, `uint32Payload.size`, `stringPayload.size`. -/
def dbPayload.size : dbPayload → Nat
  | .binaryPayload data => uint32 data.length
  | .uint32Payload _ => 4
  | .stringPayload data => uint32 data.length

/-- The byte slice a payload hands to `Write` in its `WriteTo`. -/
def dbPayload.bytes : dbPayload → List Nat
  | .binaryPayload data => data
  | .uint32Payload data => uint32ToBytes data
  | .stringPayload data => data

/-- Source `dbEntry`. -/
structure dbEntry where
  index : dbHeaderIndex
  payload : dbPayload
deriving DecidableEq, Repr

/-- Source `Header`. -/
structure Header where
  dbHeader : dbHeader
  entries : List dbEntry
deriving DecidableEq, Repr

/-- Source `signature`. -/
structure signature where
  header : Header
deriving DecidableEq, Repr

/-- The receiver after a call, and the message of the panic that ended the call, if any. -/
structure Outcome (α : Type) where
  state : α
  panic : Option String
deriving DecidableEq, Repr

/-! ## header.go : entry constructors -/

/-- Source `binaryEntry`. -/
def binaryEntry (tag : Nat) (data : List Nat) : dbEntry :=
  { index := { tag := tag, dataType := 7, offset := 0, count := uint32 data.length },
    payload := .binaryPayload data }

/-- Source `uint32Entry`. -/
def uint32Entry (tag : Nat) (data : Nat) : dbEntry :=
  { index := { tag := tag, dataType := 4, offset := 0, count := 1 },
    payload := .uint32Payload data }

/-- Source `stringEntry`. -/
def stringEntry (tag : Nat) (data : List Nat) : dbEntry :=
  { index := { tag := tag, dataType := 6, offset := 0, count := 1 },
    payload := .stringPayload data }

/-! ## header.go : sort and normalize -/

/-- The comparison closure of `Header.sort`. -/
def Header.sort.less (one two : dbEntry) : Prop := one.index.tag < two.index.tag

instance : DecidableRel Header.sort.less := fun one two =>
  inferInstanceAs (Decidable (one.index.tag < two.index.tag))

/-- The order `sort.Slice` establishes for a comparison `less`: no element is `less` than
one before it. -/
def notAfter (less : dbEntry → dbEntry → Prop) (a b : dbEntry) : Prop := ¬ less b a

instance (less : dbEntry → dbEntry → Prop) [DecidableRel less] : DecidableRel (notAfter less) :=
  fun a b => inferInstanceAs (Decidable (¬ less b a))

/-- What Go's library promises of the slice `sort.Slice(h.entries, less)` leaves, for the
`less` of `Header.sort`: a permutation of the entries in which no entry is `less` than one
before it. The library promises no stability: the order of entries with equal tags is its
choice, and `srt` stands for any such choice. -/
def SortsByTag (srt : List dbEntry → List dbEntry) : Prop :=
  ∀ es : List dbEntry, (srt es).Perm es ∧ (srt es).Pairwise (notAfter Header.sort.less)

/-- Go library `sort.Slice`, as an insertion sort: one sort that meets the promise of the
library (`SortsByTag`). It is stable, which `sort.Slice` need not be; where no two elements
compare equal, which is the case for a table with unique tags, every sorted permutation is
this one. The statement about every `Header`, tags repeated or not, is made of
`Header.normalizeWith` and holds for every sort that meets the promise. -/
def sortSlice (less : dbEntry → dbEntry → Prop) [DecidableRel less] (es : List dbEntry) :
    List dbEntry :=
  es.insertionSort (notAfter less)

/-- Source `Header.sort`. -/
def Header.sort (h : Header) : Header :=
  { h with entries := sortSlice Header.sort.less h.entries }

/-- The `for _, e := range h.entries` loop of `Header.normalize`, started with
`currentOffset`: the entries with their offsets assigned, and the final `currentOffset`. -/
def Header.normalize.loop : Nat → List dbEntry → List dbEntry × Nat
  | currentOffset, [] => ([], currentOffset)
  | currentOffset, e :: rest =>
    let r := Header.normalize.loop ((currentOffset + e.payload.size) % 2 ^ 32) rest
    ({ e with index := { e.index with offset := currentOffset } } :: r.1, r.2)

/-- Source `Header.normalize`. -/
def Header.normalize (h : Header) : Outcome Header :=
  let h1 := h.sort
  let r := Header.normalize.loop 0 h1.entries
  let h2 : Header := { h1 with entries := r.1 }
  if h2.dbHeader.hSize ≠ r.2 then
    { state := h2,
      panic := some ("mismatch: header size " ++ toString h2.dbHeader.hSize ++
        "  vs. sum of offsets " ++ toString r.2) }
  else
    { state := h2, panic := none }

/-- Source `Header.sort`, with `srt` in the place of the library call `sort.Slice`. -/
def Header.sortWith (srt : List dbEntry → List dbEntry) (h : Header) : Header :=
  { h with entries := srt h.entries }

/-- Source `Header.normalize`, with `srt` in the place of the library call `sort.Slice`;
`Header.normalize` is `Header.normalizeWith (sortSlice Header.sort.less)`. -/
def Header.normalizeWith (srt : List dbEntry → List dbEntry) (h : Header) : Outcome Header :=
  let h1 := h.sortWith srt
  let r := Header.normalize.loop 0 h1.entries
  let h2 : Header := { h1 with entries := r.1 }
  if h2.dbHeader.hSize ≠ r.2 then
    { state := h2,
      panic := some ("mismatch: header size " ++ toString h2.dbHeader.hSize ++
        "  vs. sum of offsets " ++ toString r.2) }
  else
    { state := h2, panic := none }

/-! ## signature.go : put -/

/-- The `for i, en := range es` loop of `signature.put` over the entries still to visit, `i`
the index of the first of them; `none` when the loop ends without a `return` or `panic`. -/
def signature.put.loop (s : signature) (e : dbEntry) :
    List dbEntry → Nat → Option (Outcome signature)
  | [], _ => none
  | en :: rest, i =>
    if en.index.tag = e.index.tag then
      if en.index.count ≠ e.index.count then
        some { state := s, panic := some "cannot overwrite entry, count of index does not match" }
      else if en.index.dataType ≠ e.index.dataType then
        some { state := s,
               panic := some "cannot overwrite entry, data type of index does not match" }
      else if en.payload.size ≠ e.payload.size then
        some { state := s,
               panic := some "cannot overwrite entry, sizes of payload data do not match" }
      else
        some { state := { s with header := { s.header with entries := s.header.entries.set i e } },
               panic := none }
    else
      signature.put.loop s e rest (i + 1)

/-- Source `signature.put`. -/
def signature.put (s : signature) (e : dbEntry) : Outcome signature :=
  match signature.put.loop s e s.header.entries 0 with
  | some r => r
  | none =>
    { state :=
        { header :=
            { dbHeader :=
                { s.header.dbHeader with
                  nIndex := (s.header.dbHeader.nIndex + 1) % 2 ^ 32
                  hSize := (s.header.dbHeader.hSize + e.payload.size) % 2 ^ 32 }
              entries := s.header.entries ++ [e] } },
      panic := none }

/-! ## io.Writer -/

/-- What a `Write` or `WriteTo` call returns: the byte count `n`, the error `err` (`none` is
Go's `nil`), and the writer afterwards. -/
structure WriteResult (σ : Type) where
  sink : σ
  n : Int
  err : Option String

/-- Go interface `io.Writer` over a writer state `σ`. -/
structure Writer (σ : Type) where
  Write : σ → List Nat → WriteResult σ

/-- Go library `bytes.Buffer` as an `io.Writer`: `Write` appends all of `p`, returns `len(p)`
and never an error. The state is the content of the buffer. -/
def bufferWriter : Writer (List Nat) :=
  { Write := fun buf p => { sink := buf ++ p, n := p.length, err := none } }

/-! ## header.go : WriteTo -/

/-- Source `dbHeader.WriteTo`. -/
def dbHeader.WriteTo {σ : Type} (h : dbHeader) (w : Writer σ) (st : σ) : WriteResult σ :=
  let total : Int := 0
  let r := w.Write st h.magic
  let total := total + r.n
  if r.err.isSome then { sink := r.sink, n := total, err := r.err } else
  let r := w.Write r.sink [h.version]
  let total := total + r.n
  if r.err.isSome then { sink := r.sink, n := total, err := r.err } else
  let r := w.Write r.sink h.reserved
  let total := total + r.n
  if r.err.isSome then { sink := r.sink, n := total, err := r.err } else
  let r := w.Write r.sink (uint32ToBytes h.nIndex)
  let total := total + r.n
  if r.err.isSome then { sink := r.sink, n := total, err := r.err } else
  let r := w.Write r.sink (uint32ToBytes h.hSize)
  let total := total + r.n
  { sink := r.sink, n := total, err := r.err }

/-- Source `binaryPayload.WriteTo`, `uint32Payload.WriteTo`, `stringPayload.WriteTo`. -/
def dbPayload.WriteTo {σ : Type} (p : dbPayload) (r : Writer σ) (st : σ) : WriteResult σ :=
  r.Write st p.bytes

/-! ## signature.go -/

/-- Source `headerSignatures`, for a non-negative `l`. -/
def headerSignatures (l : Nat) : List Nat :=
  let hs : List Nat := []
  let hs := hs ++ uint32ToBytes 62
  let hs := hs ++ uint32ToBytes 7
  let x := l * 16
  let r := x ^^^ 0xffffffff
  let hs := hs ++ uint32ToBytes (uint32 (r + 1))
  let hs := hs ++ uint32ToBytes 16
  hs

/-- The first `for _, e := range s.header.entries` loop of `signature.WriteTo` (the index
records), entered with the running `total`. -/
def signature.WriteTo.indexLoop {σ : Type} (w : Writer σ) :
    σ → Int → List dbEntry → WriteResult σ
  | st, total, [] => { sink := st, n := total, err := none }
  | st, total, e :: rest =>
    let r := w.Write st (uint32ToBytes e.index.tag)
    let total := total + r.n
    if r.err.isSome then { sink := r.sink, n := total, err := r.err } else
    let r := w.Write r.sink (uint32ToBytes e.index.dataType)
    let total := total + r.n
    if r.err.isSome then { sink := r.sink, n := total, err := r.err } else
    let r := w.Write r.sink (uint32ToBytes e.index.offset)
    let total := total + r.n
    if r.err.isSome then { sink := r.sink, n := total, err := r.err } else
    let r := w.Write r.sink (uint32ToBytes e.index.count)
    let total := total + r.n
    if r.err.isSome then { sink := r.sink, n := total, err := r.err } else
    signature.WriteTo.indexLoop w r.sink total rest

/-- The second `for _, e := range s.header.entries` loop of `signature.WriteTo` (the
payloads), entered with the running `total`. -/
def signature.WriteTo.payloadLoop {σ : Type} (w : Writer σ) :
    σ → Int → List dbEntry → WriteResult σ
  | st, total, [] => { sink := st, n := total, err := none }
  | st, total, e :: rest =>
    let r := e.payload.WriteTo w st
    let total := total + r.n
    if r.err.isSome then { sink := r.sink, n := total, err := r.err } else
    signature.WriteTo.payloadLoop w r.sink total rest

/-- Source `signature.WriteTo`. -/
def signature.WriteTo {σ : Type} (s : signature) (w : Writer σ) (st : σ) : WriteResult σ :=
  let total : Int := 0
  let r := s.header.dbHeader.WriteTo w st
  let total := total + r.n
  if r.err.isSome then { sink := r.sink, n := total, err := r.err } else
  let r := signature.WriteTo.indexLoop w r.sink total s.header.entries
  if r.err.isSome then r else
  let r := signature.WriteTo.payloadLoop w r.sink r.n s.header.entries
  if r.err.isSome then r else
  { sink := r.sink, n := r.n, err := none }

/-- The bytes of a Go string literal made of ASCII characters. -/
def ascii (s : String) : List Nat := s.toList.map Char.toNat

/-- Go `make([]byte, n)`. -/
def makeBytes (n : Nat) : List Nat := List.replicate n 0

/-- A statement of `newSignature` that follows one which panicked is not run. -/
def Outcome.next {α : Type} (o : Outcome α) (f : α → Outcome α) : Outcome α :=
  match o.panic with
  | some _ => o
  | none => f o.state

/-- The call `s.header.normalize()` on a signature. -/
def signature.normalizeHeader (s : signature) : Outcome signature :=
  let r := s.header.normalize
  { state := { s with header := r.state }, panic := r.panic }

/-- The signature right after `s.header.dbHeader = newDbHeader()` in `newSignature`. -/
def emptySignature : signature :=
  { header := { dbHeader := newDbHeader, entries := [] } }

/-- Source `newSignature`. -/
def newSignature : Outcome signature :=
  let o : Outcome signature := { state := emptySignature, panic := none }
  let o := o.next fun s => s.put (binaryEntry 0x3f0 (makeBytes 4096))
  let o := o.next fun s => s.put (stringEntry 0x10d (ascii "xxxxxxxxxxxxxxxxxxxxxxxxxxxxxxxxxxxxxxxx"))
  let o := o.next fun s => s.put (uint32Entry 0x3e8 0)
  let o := o.next fun s => s.put (binaryEntry 0x3ec (makeBytes 16))
  let o := o.next fun s => s.put (uint32Entry 0x3ef 0)
  let o := o.next fun s => s.put (binaryEntry 0x3e (headerSignatures (s.header.entries.length + 1)))
  o.next fun s => s.normalizeHeader

/-! ## lead.go -/

/-- Source `leadVersion`. -/
structure leadVersion where
  major : Nat
  minor : Nat
deriving DecidableEq, Repr

/-- Source `pkg`; a Go string is its bytes. -/
structure pkg where
  name : List Nat
  version : List Nat
  release : List Nat
deriving DecidableEq, Repr

/-- Source `Lead`. The types `magic` and `reserved` are byte slices; `pkgType`, `arch`, `osys`
and `sigtype` are `uint16`. -/
structure Lead where
  magic : List Nat
  leadVersion : leadVersion
  pkgType : Nat
  arch : Nat
  pkg : pkg
  os : Nat
  sigtype : Nat
  reserved : List Nat
deriving DecidableEq, Repr

/-- Source constant `Binary` of type `pkgType`. -/
def Binary : Nat := 0

/-- Source constant `Source` of type `pkgType`. -/
def Source : Nat := 1

/-- Source constant `I386x8664` of type `arch`. -/
def I386x8664 : Nat := 1

/-- Source constant `NOARCH` of type `arch`. -/
def NOARCH : Nat := 0xff

/-- Source constant `LINUX` of type `osys`. -/
def LINUX : Nat := 1

/-- Source constant `HeaderStyle` of type `sigtype`. -/
def HeaderStyle : Nat := 5

/-- The text Go prints for a byte slice under the verb `%s`: the bytes themselves. An error
text is written with one character per byte (see the conventions), so each byte becomes the
character of that code. -/
def goText (bs : List Nat) : String := String.mk (bs.map Char.ofNat)

/-- Source `leadVersion.WriteTo`. -/
def leadVersion.WriteTo {σ : Type} (v : leadVersion) (w : Writer σ) (st : σ) : WriteResult σ :=
  let r := w.Write st [v.major, v.minor]
  match r.err with
  | some err => { sink := r.sink, n := r.n, err := some ("cannot write lead leadVersion: " ++ err) }
  | none => { sink := r.sink, n := r.n, err := none }

/-- Source `pkgType.WriteTo`. -/
def pkgType.WriteTo {σ : Type} (p : Nat) (w : Writer σ) (st : σ) : WriteResult σ :=
  let h := uint8 (p >>> 8)
  let l := uint8 (p &&& 0xff)
  let r := w.Write st [h, l]
  match r.err with
  | some err => { sink := r.sink, n := r.n, err := some ("cannot write package type: " ++ err) }
  | none => { sink := r.sink, n := r.n, err := none }

/-- Source `arch.WriteTo`. -/
def arch.WriteTo {σ : Type} (a : Nat) (w : Writer σ) (st : σ) : WriteResult σ :=
  let h := uint8 (a >>> 8)
  let l := uint8 (a &&& 0xff)
  let r := w.Write st [h, l]
  match r.err with
  | some err => { sink := r.sink, n := r.n, err := some ("cannot write arch: " ++ err) }
  | none => { sink := r.sink, n := r.n, err := none }

/-- Source `pkg.WriteTo`. -/
def pkg.WriteTo {σ : Type} (p : pkg) (w : Writer σ) (st : σ) : WriteResult σ :=
  let nameVersionRelease := p.name ++ ascii "-" ++ p.version ++ ascii "-" ++ p.release
  let numZeroesToPad : Int := 66 - (nameVersionRelease.length : Int)
  if numZeroesToPad < 0 then
    { sink := st, n := 0,
      err := some ("unable to write name-version-release for \x27" ++
        goText nameVersionRelease ++ "\x27, it may not exceed 65 bytes") }
  else
    let r := w.Write st nameVersionRelease
    match r.err with
    | some err =>
      { sink := r.sink, n := r.n, err := some ("failed to write name-version-release: " ++ err) }
    | none =>
      let zeroes := makeBytes numZeroesToPad.toNat
      let rz := w.Write r.sink zeroes
      match rz.err with
      | some err =>
        { sink := rz.sink, n := r.n + rz.n,
          err := some ("faild to write " ++ toString numZeroesToPad ++
            " zeroes after name-version-release: " ++ err) }
      | none => { sink := rz.sink, n := r.n + rz.n, err := none }

/-- Source `osys.WriteTo`. -/
def osys.WriteTo {σ : Type} (o : Nat) (w : Writer σ) (st : σ) : WriteResult σ :=
  let h := uint8 (o >>> 8)
  let l := uint8 (o &&& 0xff)
  let r := w.Write st [h, l]
  match r.err with
  | some err => { sink := r.sink, n := r.n, err := some ("cannot write os: " ++ err) }
  | none => { sink := r.sink, n := r.n, err := none }

/-- Source `sigtype.WriteTo`. -/
def sigtype.WriteTo {σ : Type} (s : Nat) (w : Writer σ) (st : σ) : WriteResult σ :=
  let h := uint8 (s >>> 8)
  let l := uint8 (s &&& 0xff)
  let r := w.Write st [h, l]
  match r.err with
  | some err => { sink := r.sink, n := r.n, err := some ("cannot write signature type: " ++ err) }
  | none => { sink := r.sink, n := r.n, err := none }

/-- Source `reserved.WriteTo`. -/
def reserved.WriteTo {σ : Type} (r : List Nat) (w : Writer σ) (st : σ) : WriteResult σ :=
  let res := w.Write st r
  match res.err with
  | some err =>
    { sink := res.sink, n := res.n,
      err := some ("cannot reserved " ++ toString r.length ++ " bytes: " ++ err) }
  | none => { sink := res.sink, n := res.n, err := none }

/-- Source `magic.WriteTo`. -/
def magic.WriteTo {σ : Type} (m : List Nat) (w : Writer σ) (st : σ) : WriteResult σ :=
  let r := w.Write st m
  match r.err with
  | some err =>
    { sink := r.sink, n := r.n,
      err := some ("cannot reserved " ++ toString m.length ++ " magic bytes: " ++ err) }
  | none => { sink := r.sink, n := r.n, err := none }

/-- The `for _, w := range ws` loop of `Lead.WriteTo`, entered with the running `n`; a
`WriterTo` of the slice is its `WriteTo`, already bound to the sink. -/
def Lead.WriteTo.loop {σ : Type} : List (σ → WriteResult σ) → σ → Int → WriteResult σ
  | [], st, n => { sink := st, n := n, err := none }
  | w :: rest, st, n =>
    let r := w st
    let n := n + r.n
    match r.err with
    | some err => { sink := r.sink, n := n, err := some ("failed to write lead: " ++ err) }
    | none => Lead.WriteTo.loop rest r.sink n

/-- Source `Lead.WriteTo`; `dst` is the parameter `to` of the source. -/
def Lead.WriteTo {σ : Type} (l : Lead) (dst : Writer σ) (st : σ) : WriteResult σ :=
  let ws : List (σ → WriteResult σ) :=
    [magic.WriteTo l.magic dst, l.leadVersion.WriteTo dst, pkgType.WriteTo l.pkgType dst,
      arch.WriteTo l.arch dst, l.pkg.WriteTo dst, osys.WriteTo l.os dst,
      sigtype.WriteTo l.sigtype dst, reserved.WriteTo l.reserved dst]
  Lead.WriteTo.loop ws st 0

/-- Source `Option` (the name `Option` is taken): an action that reconfigures the Lead. -/
abbrev LeadOption := Lead → Lead

/-- Source `NewLead`; `var l Lead` starts from Go's zero values. -/
def NewLead (opts : List LeadOption) : Lead :=
  let l : Lead :=
    { magic := [0xed, 0xab, 0xee, 0xdb]
      leadVersion := { major := 3, minor := 0 }
      pkgType := Binary
      arch := I386x8664
      pkg := { name := [], version := [], release := [] }
      os := LINUX
      sigtype := HeaderStyle
      reserved := makeBytes 16 }
  opts.foldl (fun l o => o l) l

/-- Source `Package`. -/
def Package (name version release : List Nat) : LeadOption :=
  fun l => { l with pkg := { name := name, version := version, release := release } }

/-- Source `Bin`. -/
def Bin : LeadOption := fun l => { l with pkgType := Binary }

/-- Source `Src`. -/
def Src : LeadOption := fun l => { l with pkgType := Source }

/-- Source `Arch`. -/
def Arch (a : Nat) : LeadOption := fun l => { l with arch := a }

/-! ## Definitions of the verification: reachable tables, sums, layouts, sample tables -/

/-- The tables `signature.put` builds: the empty table of `newSignature`, and every table a
non-panicking `put` makes of such a table. -/
inductive Reachable : signature → Prop
  | empty : Reachable emptySignature
  | put (s : signature) (e : dbEntry) :
      Reachable s → (s.put e).panic = none → Reachable (s.put e).state

/-- The tags of a list of entries, in order. -/
def tags (es : List dbEntry) : List Nat := es.map fun e => e.index.tag

/-- The sum of `payload.size()` over a list of entries, as a natural number. -/
def sizeSum (es : List dbEntry) : Nat := (es.map fun e => e.payload.size).sum

/-- The number of payload bytes of a list of entries. -/
def byteSum (es : List dbEntry) : Nat := (es.map fun e => e.payload.bytes.length).sum

/-- What `signature.put` does at the first entry `en` whose tag is the tag of `e`, found at
index `k` (the body of the `if en.index.tag == e.index.tag`). -/
def putAt (s : signature) (e en : dbEntry) (k : Nat) : Outcome signature :=
  if en.index.count ≠ e.index.count then
    { state := s, panic := some "cannot overwrite entry, count of index does not match" }
  else if en.index.dataType ≠ e.index.dataType then
    { state := s, panic := some "cannot overwrite entry, data type of index does not match" }
  else if en.payload.size ≠ e.payload.size then
    { state := s, panic := some "cannot overwrite entry, sizes of payload data do not match" }
  else
    { state := { s with header := { s.header with entries := s.header.entries.set k e } },
      panic := none }

/-- The table `signature.put` leaves when no entry has the tag of `e`. -/
def putFresh (s : signature) (e : dbEntry) : signature :=
  { header :=
      { dbHeader :=
          { s.header.dbHeader with
            nIndex := (s.header.dbHeader.nIndex + 1) % 2 ^ 32
            hSize := (s.header.dbHeader.hSize + e.payload.size) % 2 ^ 32 }
        entries := s.header.entries ++ [e] } }

/-- What every reachable table satisfies: the preamble constants are those of `newDbHeader`,
no tag occurs twice, and `nIndex` and `hSize` are the number of entries and the sum of the
payload sizes in 32-bit arithmetic. -/
structure Inv (s : signature) : Prop where
  magic : s.header.dbHeader.magic = [0x8e, 0xad, 0xe8]
  version : s.header.dbHeader.version = 1
  reserved : s.header.dbHeader.reserved = [0x0, 0x0, 0x0, 0x0]
  nodup : (tags s.header.entries).Nodup
  nIndex : s.header.dbHeader.nIndex = s.header.entries.length % 2 ^ 32
  hSize : s.header.dbHeader.hSize = sizeSum s.header.entries % 2 ^ 32

/-- Entry `b` is entry `a` with a possibly different `offset` in its index record. -/
def sameButOffset (a b : dbEntry) : Prop :=
  b = { a with index := { a.index with offset := b.index.offset } }

instance : DecidableRel sameButOffset := fun a b =>
  inferInstanceAs (Decidable (b = { a with index := { a.index with offset := b.index.offset } }))

instance : IsTotal dbEntry (notAfter Header.sort.less) :=
  ⟨fun a b => by
    unfold notAfter Header.sort.less
    omega⟩

instance : IsTrans dbEntry (notAfter Header.sort.less) :=
  ⟨fun a b c => by
    unfold notAfter Header.sort.less
    omega⟩

/-- The four bytes of the 32-bit unsigned value `x mod 2 ^ 32`, most significant first. -/
def bigEndian32 (x : Nat) : List Nat :=
  [x / 2 ^ 24 % 256, x / 2 ^ 16 % 256, x / 2 ^ 8 % 256, x % 256]

/-- The 16 bytes of an index record: tag, dataType, offset, count, each big-endian. -/
def indexRecord (e : dbEntry) : List Nat :=
  bigEndian32 e.index.tag ++ bigEndian32 e.index.dataType ++ bigEndian32 e.index.offset ++
    bigEndian32 e.index.count

/-- The index records of a list of entries, one after the other. -/
def indexArea (es : List dbEntry) : List Nat := es.flatMap indexRecord

/-- The payload bytes of a list of entries, one payload after the other. -/
def payloadArea (es : List dbEntry) : List Nat := es.flatMap fun e => e.payload.bytes

/-- A header in which two entries carry the same tag (no `put` builds it). -/
def twinHeader : Header :=
  { dbHeader := { newDbHeader with nIndex := 2, hSize := 5 },
    entries := [binaryEntry 7 [1], uint32Entry 7 0] }

/-- A table of three entries put in descending tag order. -/
def sampleTable : signature :=
  (((emptySignature.put (uint32Entry 9 1)).state.put (binaryEntry 5 [1, 2, 3])).state.put
    (stringEntry 2 [104, 105])).state

/-- The calls `s.put(e)` for the entries of a list, in order. -/
def putAll (s : signature) : List dbEntry → signature
  | [] => s
  | e :: es => putAll (s.put e).state es

/-- One binary entry without payload bytes, `binaryEntry(t, []byte{})`, per tag of a list. -/
def emptyEntries (ts : List Nat) : List dbEntry := ts.map fun t => binaryEntry t []

/-- The table after `put(binaryEntry(t, []byte{}))` for every 32-bit tag `t`, ascending. -/
def fullTable : signature := putAll emptySignature (emptyEntries (List.range (2 ^ 32)))

/-- Entry `e` with `off` stored in the `offset` of its index record. -/
def withOffset (e : dbEntry) (off : Nat) : dbEntry :=
  { e with index := { e.index with offset := off } }

/-- The table of `newSignature` after its six `put` calls, before `normalize`. -/
def sixPuts : signature :=
  ((((((emptySignature.put (binaryEntry 0x3f0 (makeBytes 4096))).state.put
    (stringEntry 0x10d (ascii "xxxxxxxxxxxxxxxxxxxxxxxxxxxxxxxxxxxxxxxx"))).state.put
    (uint32Entry 0x3e8 0)).state.put (binaryEntry 0x3ec (makeBytes 16))).state.put
    (uint32Entry 0x3ef 0)).state.put (binaryEntry 0x3e (headerSignatures 6))).state

/-- The 32-bit value that four bytes encode, most significant byte first. -/
def decode32 (b0 b1 b2 b3 : Nat) : Nat := b0 * 2 ^ 24 + b1 * 2 ^ 16 + b2 * 2 ^ 8 + b3

/-- A byte sequence read as consecutive big-endian 32-bit words (a rest of fewer than four
bytes is dropped). -/
def decodeWords : List Nat → List Nat
  | b0 :: b1 :: b2 :: b3 :: rest => decode32 b0 b1 b2 b3 :: decodeWords rest
  | _ => []

/-- The offsets stored in the index records of a list of entries, in order. -/
def offsets (es : List dbEntry) : List Nat := es.map fun e => e.index.offset

/-- A table of two entries whose payloads are empty. -/
def twoEmpty : signature :=
  ((emptySignature.put (binaryEntry 1 [])).state.put (stringEntry 2 [])).state

/-- A table of two entries, the first with a payload of 2^32 zero bytes. -/
def wrapTable : signature :=
  ((emptySignature.put (binaryEntry 1 (List.replicate (2 ^ 32) 0))).state.put
    (uint32Entry 2 0)).state

/-- What one `Write` call returned. -/
structure WriteCall where
  n : Int
  err : Option String
deriving DecidableEq, Repr

/-- A writer that behaves as `w` and records, in order, what each of its `Write` calls
returned. -/
def traced {σ : Type} (w : Writer σ) : Writer (σ × List WriteCall) :=
  { Write := fun st p =>
      { sink := ((w.Write st.1 p).sink, st.2 ++ [{ n := (w.Write st.1 p).n,
                                                   err := (w.Write st.1 p).err }]),
        n := (w.Write st.1 p).n,
        err := (w.Write st.1 p).err } }

/-- The record of a run that started with the calls `log` recorded and the running total
`t`, and returned `r`: the run made the calls `new`, the count returned is `t` plus the
counts of these calls, and either every call succeeded and the run returns no error, or every
call but the last succeeded, the last failed, and the run returns its error. -/
def Traces {σ : Type} (log : List WriteCall) (t : Int) (r : WriteResult (σ × List WriteCall)) :
    Prop :=
  ∃ new : List WriteCall, r.sink.2 = log ++ new ∧ r.n = t + (new.map fun c => c.n).sum ∧
    (((∀ c ∈ new, c.err = none) ∧ r.err = none) ∨
      ∃ ok c, new = ok ++ [c] ∧ (∀ x ∈ ok, x.err = none) ∧ c.err ≠ none ∧ r.err = c.err)

/-- A writer over a call counter: the call numbered `k` (from 0) writes one byte less than it
is given and fails, every other call succeeds. -/
def failingAt (k : Nat) : Writer Nat :=
  { Write := fun calls p =>
      if calls = k then
        { sink := calls + 1, n := (p.length : Int) - 1, err := some "short write" }
      else
        { sink := calls + 1, n := p.length, err := none } }

/-- The name-version-release string `pkg.WriteTo` builds. -/
def nameVersionRelease (p : pkg) : List Nat :=
  p.name ++ ascii "-" ++ p.version ++ ascii "-" ++ p.release

/-- The options `Package`, `Bin`, `Src` and `Arch` of `NewLead`. -/
inductive IsOption : LeadOption → Prop
  | package (name version release : List Nat) : IsOption (Package name version release)
  | bin : IsOption Bin
  | src : IsOption Src
  | arch (a : Nat) : IsOption (Arch a)

/-- The fields of a Lead that no option of `NewLead` changes, at the values `NewLead` gives
them. -/
structure FixedFields (l : Lead) : Prop where
  magic : l.magic = [0xed, 0xab, 0xee, 0xdb]
  leadVersion : l.leadVersion = { major := 3, minor := 0 }
  os : l.os = LINUX
  sigtype : l.sigtype = HeaderStyle
  reserved : l.reserved = makeBytes 16

/-- The two bytes the `uint16` writers of the lead hand to `Write`. -/
def twoBytes (x : Nat) : List Nat := [uint8 (x >>> 8), uint8 (x &&& 0xff)]

/-- The options of a lead for a source package without architecture. -/
def sampleOptions : List LeadOption :=
  [Package (ascii "myapp") (ascii "1.0.3") (ascii "1"), Src, Arch NOARCH]

/-- The lead of `TestWriteLeadVsGnuFile`. -/
def testLead : Lead :=
  NewLead [Package (ascii "myapp") (ascii "1.0.3") (ascii "1"), Bin, Arch I386x8664]

/-- A package whose name-version-release string has 66 bytes: 62 times `a`, then `-1-1`. -/
def pkg66 : pkg := { name := List.replicate 62 97, version := ascii "1", release := ascii "1" }

/-! # Theorems -/

/-! ## Reachable tables -/

theorem put_loop_none (s : signature) (e : dbEntry) (es : List dbEntry) (i : Nat)
    (h : ∀ en ∈ es, en.index.tag ≠ e.index.tag) : signature.put.loop s e es i = none := by
  induction es generalizing i with
  | nil => rfl
  | cons en rest ih =>
    have h1 : en.index.tag ≠ e.index.tag := h en (List.mem_cons_self _ _)
    have h2 : ∀ x ∈ rest, x.index.tag ≠ e.index.tag := fun x hx => h x (List.mem_cons_of_mem _ hx)
    simp only [signature.put.loop, if_neg h1]
    exact ih (i + 1) h2

theorem put_loop_hit (s : signature) (e en : dbEntry) (a b : List dbEntry) (i : Nat)
    (ha : ∀ x ∈ a, x.index.tag ≠ e.index.tag) (hen : en.index.tag = e.index.tag) :
    signature.put.loop s e (a ++ en :: b) i = some (putAt s e en (i + a.length)) := by
  induction a generalizing i with
  | nil =>
    simp only [List.nil_append, signature.put.loop, if_pos hen, putAt, List.length_nil,
      Nat.add_zero]
    split_ifs <;> rfl
  | cons x rest ih =>
    have h1 : x.index.tag ≠ e.index.tag := ha x (List.mem_cons_self _ _)
    have h2 : ∀ y ∈ rest, y.index.tag ≠ e.index.tag :=
      fun y hy => ha y (List.mem_cons_of_mem _ hy)
    have step : signature.put.loop s e ((x :: rest) ++ en :: b) i =
        signature.put.loop s e (rest ++ en :: b) (i + 1) := by
      simp only [List.cons_append, signature.put.loop, if_neg h1]
      rfl
    rw [step, ih (i + 1) h2, List.length_cons]
    congr 2
    omega

/-- The fresh path of `signature.put`. -/
theorem put_of_absent (s : signature) (e : dbEntry)
    (h : ∀ en ∈ s.header.entries, en.index.tag ≠ e.index.tag) :
    s.put e = { state := putFresh s e, panic := none } := by
  simp only [signature.put, put_loop_none s e _ 0 h, putFresh]

/-- The path of `signature.put` through the first entry that has the tag of `e`. -/
theorem put_of_present (s : signature) (e en : dbEntry) (a b : List dbEntry)
    (hs : s.header.entries = a ++ en :: b)
    (ha : ∀ x ∈ a, x.index.tag ≠ e.index.tag) (hen : en.index.tag = e.index.tag) :
    s.put e = putAt s e en a.length := by
  simp only [signature.put, hs, put_loop_hit s e en a b 0 ha hen, Nat.zero_add]

/-- Every list of entries either has no entry with a given tag or splits at the first one. -/
theorem split_at_tag (t : Nat) (es : List dbEntry) :
    (∀ en ∈ es, en.index.tag ≠ t) ∨
    ∃ a en b, es = a ++ en :: b ∧ (∀ x ∈ a, x.index.tag ≠ t) ∧ en.index.tag = t := by
  induction es with
  | nil => left; intro en h; cases h
  | cons x rest ih =>
    by_cases hx : x.index.tag = t
    · right; exact ⟨[], x, rest, rfl, fun y hy => absurd hy (List.not_mem_nil y), hx⟩
    · rcases ih with h | ⟨a, en, b, h1, h2, h3⟩
      · left
        intro en hen
        rcases List.mem_cons.1 hen with rfl | h'
        · exact hx
        · exact h en h'
      · right
        refine ⟨x :: a, en, b, by rw [h1]; rfl, ?_, h3⟩
        intro y hy
        rcases List.mem_cons.1 hy with rfl | h'
        · exact hx
        · exact h2 y h'

/-! ## Invariants of reachable tables -/

theorem set_length_append (a b : List dbEntry) (en e : dbEntry) :
    (a ++ en :: b).set a.length e = a ++ e :: b := by
  induction a with
  | nil => rfl
  | cons x rest ih =>
    show x :: (rest ++ en :: b).set rest.length e = x :: (rest ++ e :: b)
    rw [ih]

theorem tags_append (a b : List dbEntry) : tags (a ++ b) = tags a ++ tags b := by
  simp [tags]

theorem tags_cons (e : dbEntry) (b : List dbEntry) : tags (e :: b) = e.index.tag :: tags b := rfl

theorem sizeSum_nil : sizeSum [] = 0 := rfl

theorem sizeSum_cons (e : dbEntry) (b : List dbEntry) :
    sizeSum (e :: b) = e.payload.size + sizeSum b := by
  simp [sizeSum]

theorem sizeSum_append (a b : List dbEntry) : sizeSum (a ++ b) = sizeSum a + sizeSum b := by
  simp [sizeSum]

theorem byteSum_cons (e : dbEntry) (b : List dbEntry) :
    byteSum (e :: b) = e.payload.bytes.length + byteSum b := by
  simp [byteSum]

theorem byteSum_append (a b : List dbEntry) : byteSum (a ++ b) = byteSum a + byteSum b := by
  simp [byteSum]

theorem mem_tags {t : Nat} {es : List dbEntry} :
    t ∈ tags es ↔ ∃ en ∈ es, en.index.tag = t := by
  simp [tags]

theorem inv_empty : Inv emptySignature :=
  ⟨rfl, rfl, rfl, List.nodup_nil, rfl, rfl⟩

theorem inv_putFresh (s : signature) (e : dbEntry) (hi : Inv s)
    (h : ∀ en ∈ s.header.entries, en.index.tag ≠ e.index.tag) : Inv (putFresh s e) := by
  refine ⟨hi.magic, hi.version, hi.reserved, ?_, ?_, ?_⟩
  · show (tags (s.header.entries ++ [e])).Nodup
    rw [tags_append]
    refine List.Nodup.append hi.nodup (List.nodup_singleton _) ?_
    intro t ht ht'
    rcases mem_tags.1 ht with ⟨en, hen, rfl⟩
    rcases List.mem_singleton.1 ht' with h'
    exact h en hen h'
  · show (s.header.dbHeader.nIndex + 1) % 2 ^ 32 = (s.header.entries ++ [e]).length % 2 ^ 32
    rw [hi.nIndex, List.length_append, List.length_singleton]
    omega
  · show (s.header.dbHeader.hSize + e.payload.size) % 2 ^ 32 =
      sizeSum (s.header.entries ++ [e]) % 2 ^ 32
    rw [hi.hSize, sizeSum_append, sizeSum_cons, sizeSum_nil]
    omega

theorem inv_putAt (s : signature) (e en : dbEntry) (a b : List dbEntry)
    (hs : s.header.entries = a ++ en :: b) (hen : en.index.tag = e.index.tag) (hi : Inv s) :
    Inv (putAt s e en a.length).state := by
  unfold putAt
  split_ifs with h1 h2 h3
  · exact hi
  · exact hi
  · exact hi
  · have hsz : en.payload.size = e.payload.size := not_not.1 h3
    have hn := hi.nodup
    have hx := hi.nIndex
    have hh := hi.hSize
    rw [hs] at hn hx hh
    refine ⟨hi.magic, hi.version, hi.reserved, ?_, ?_, ?_⟩
    · show (tags (s.header.entries.set a.length e)).Nodup
      rw [hs, set_length_append, tags_append, tags_cons, ← hen]
      rw [tags_append, tags_cons] at hn
      exact hn
    · show s.header.dbHeader.nIndex = (s.header.entries.set a.length e).length % 2 ^ 32
      rw [hs, set_length_append, hx]
      simp
    · show s.header.dbHeader.hSize = sizeSum (s.header.entries.set a.length e) % 2 ^ 32
      rw [hs, set_length_append, hh, sizeSum_append, sizeSum_append, sizeSum_cons, sizeSum_cons,
        hsz]

theorem inv_put (s : signature) (e : dbEntry) (hi : Inv s) : Inv (s.put e).state := by
  rcases split_at_tag e.index.tag s.header.entries with h | ⟨a, en, b, h1, h2, h3⟩
  · rw [put_of_absent s e h]
    exact inv_putFresh s e hi h
  · rw [put_of_present s e en a b h1 h2 h3]
    exact inv_putAt s e en a b h1 h3 hi

theorem inv_of_reachable {s : signature} (h : Reachable s) : Inv s := by
  induction h with
  | empty => exact inv_empty
  | put s e _ _ ih => exact inv_put s e ih

/-! ## The walk of normalize -/

theorem normalize_loop_nil (c : Nat) : Header.normalize.loop c [] = ([], c) := rfl

theorem normalize_loop_cons (c : Nat) (e : dbEntry) (rest : List dbEntry) :
    Header.normalize.loop c (e :: rest) =
      ({ e with index := { e.index with offset := c } } ::
          (Header.normalize.loop ((c + e.payload.size) % 2 ^ 32) rest).1,
        (Header.normalize.loop ((c + e.payload.size) % 2 ^ 32) rest).2) := rfl

theorem normalize_loop_same (c : Nat) (es : List dbEntry) :
    List.Forall₂ sameButOffset es (Header.normalize.loop c es).1 := by
  induction es generalizing c with
  | nil => exact List.Forall₂.nil
  | cons e rest ih =>
    rw [normalize_loop_cons]
    exact List.Forall₂.cons rfl (ih _)

theorem normalize_loop_length (c : Nat) (es : List dbEntry) :
    (Header.normalize.loop c es).1.length = es.length :=
  (normalize_loop_same c es).length_eq.symm

theorem normalize_loop_tags (c : Nat) (es : List dbEntry) :
    tags (Header.normalize.loop c es).1 = tags es := by
  induction es generalizing c with
  | nil => rfl
  | cons e rest ih => rw [normalize_loop_cons, tags_cons, tags_cons, ih]

theorem normalize_loop_sizeSum (c : Nat) (es : List dbEntry) :
    sizeSum (Header.normalize.loop c es).1 = sizeSum es := by
  induction es generalizing c with
  | nil => rfl
  | cons e rest ih => rw [normalize_loop_cons, sizeSum_cons, sizeSum_cons, ih]

theorem normalize_loop_bytes (c : Nat) (es : List dbEntry) :
    (Header.normalize.loop c es).1.map (fun e => e.payload) = es.map (fun e => e.payload) := by
  induction es generalizing c with
  | nil => rfl
  | cons e rest ih => rw [normalize_loop_cons, List.map_cons, List.map_cons, ih]

/-- The final `currentOffset` of the walk. -/
theorem normalize_loop_total (c : Nat) (es : List dbEntry) (hc : c < 2 ^ 32) :
    (Header.normalize.loop c es).2 = (c + sizeSum es) % 2 ^ 32 := by
  induction es generalizing c with
  | nil =>
    rw [normalize_loop_nil, sizeSum_nil]
    show c = (c + 0) % 2 ^ 32
    omega
  | cons e rest ih =>
    rw [normalize_loop_cons, sizeSum_cons]
    show (Header.normalize.loop ((c + e.payload.size) % 2 ^ 32) rest).2 = _
    rw [ih _ (Nat.mod_lt _ (by norm_num))]
    omega

/-- The offset the walk assigns to the entry at position `i`. -/
theorem normalize_loop_offset (c : Nat) (es : List dbEntry) (hc : c < 2 ^ 32) (i : Nat)
    (hi : i < (Header.normalize.loop c es).1.length) :
    ((Header.normalize.loop c es).1.get ⟨i, hi⟩).index.offset =
      (c + sizeSum ((Header.normalize.loop c es).1.take i)) % 2 ^ 32 := by
  induction es generalizing c i with
  | nil => exact absurd hi (Nat.not_lt_zero _)
  | cons e rest ih =>
    cases i with
    | zero =>
      show c = (c + sizeSum []) % 2 ^ 32
      rw [sizeSum_nil]
      omega
    | succ j =>
      have hj : j < (Header.normalize.loop ((c + e.payload.size) % 2 ^ 32) rest).1.length :=
        Nat.lt_of_succ_lt_succ hi
      have key := ih ((c + e.payload.size) % 2 ^ 32) (Nat.mod_lt _ (by norm_num)) j hj
      show ((Header.normalize.loop ((c + e.payload.size) % 2 ^ 32) rest).1.get ⟨j, hj⟩).index.offset =
        (c + sizeSum ({ e with index := { e.index with offset := c } } ::
          (Header.normalize.loop ((c + e.payload.size) % 2 ^ 32) rest).1.take j)) % 2 ^ 32
      rw [key, sizeSum_cons]
      show _ = (c + (e.payload.size + _)) % 2 ^ 32
      omega

/-! ## The order of sort -/

theorem sort_perm (h : Header) : h.sort.entries.Perm h.entries :=
  List.perm_insertionSort _ _

theorem sort_sorted (h : Header) : (tags h.sort.entries).Sorted (fun x y => x ≤ y) := by
  have hs : List.Sorted (notAfter Header.sort.less) h.sort.entries :=
    List.sorted_insertionSort _ _
  unfold tags
  rw [List.Sorted, List.pairwise_map]
  refine List.Pairwise.imp ?_ hs
  intro a b hab
  unfold notAfter Header.sort.less at hab
  omega

theorem sort_sizeSum (h : Header) : sizeSum h.sort.entries = sizeSum h.entries :=
  ((sort_perm h).map _).sum_eq

theorem sort_byteSum (h : Header) : byteSum h.sort.entries = byteSum h.entries :=
  ((sort_perm h).map _).sum_eq

theorem sort_tags_perm (h : Header) : (tags h.sort.entries).Perm (tags h.entries) :=
  (sort_perm h).map _

/-! ## normalize -/

theorem normalize_entries (h : Header) :
    h.normalize.state.entries = (Header.normalize.loop 0 h.sort.entries).1 := by
  unfold Header.normalize
  simp only
  split_ifs <;> rfl

theorem normalize_dbHeader (h : Header) : h.normalize.state.dbHeader = h.dbHeader := by
  unfold Header.normalize
  simp only
  split_ifs <;> rfl

theorem normalize_panic_iff (h : Header) :
    h.normalize.panic = none ↔ h.dbHeader.hSize = sizeSum h.entries % 2 ^ 32 := by
  have ht : (Header.normalize.loop 0 h.sort.entries).2 = sizeSum h.entries % 2 ^ 32 := by
    rw [normalize_loop_total 0 _ (by norm_num), sort_sizeSum, Nat.zero_add]
  unfold Header.normalize
  simp only
  rw [ht]
  have hd : h.sort.dbHeader = h.dbHeader := rfl
  simp only [hd]
  split_ifs with hne
  · exact ⟨fun h' => h'.elim, fun h' => absurd h' hne⟩
  · exact ⟨fun _ => not_not.1 hne, fun _ => rfl⟩

theorem normalize_tags_sorted (h : Header) (hn : (tags h.entries).Nodup) :
    (tags h.normalize.state.entries).Sorted (fun x y => x < y) := by
  rw [normalize_entries, normalize_loop_tags]
  exact (sort_sorted h).lt_of_le ((sort_tags_perm h).nodup_iff.2 hn)

/-! ## Serialization into a buffer -/

theorem uint32ToBytes_eq (x : Nat) : uint32ToBytes x = bigEndian32 x := by
  have h255 : ∀ y : Nat, y &&& 0xff = y % 256 := fun y => Nat.and_pow_two_sub_one_eq_mod y 8
  simp only [uint32ToBytes, bigEndian32, uint8, h255, Nat.shiftRight_eq_div_pow, Nat.mod_mod]

theorem bigEndian32_length (x : Nat) : (bigEndian32 x).length = 4 := rfl

theorem indexRecord_length (e : dbEntry) : (indexRecord e).length = 16 := rfl

theorem indexArea_nil : indexArea [] = [] := rfl

theorem indexArea_cons (e : dbEntry) (es : List dbEntry) :
    indexArea (e :: es) = indexRecord e ++ indexArea es := rfl

theorem payloadArea_nil : payloadArea [] = [] := rfl

theorem payloadArea_cons (e : dbEntry) (es : List dbEntry) :
    payloadArea (e :: es) = e.payload.bytes ++ payloadArea es := rfl

theorem payloadArea_append (a b : List dbEntry) :
    payloadArea (a ++ b) = payloadArea a ++ payloadArea b := by
  simp [payloadArea]

theorem indexArea_length (es : List dbEntry) : (indexArea es).length = 16 * es.length := by
  induction es with
  | nil => rfl
  | cons e rest ih =>
    rw [indexArea_cons, List.length_append, ih, indexRecord_length, List.length_cons]
    omega

theorem payloadArea_length (es : List dbEntry) : (payloadArea es).length = byteSum es := by
  induction es with
  | nil => rfl
  | cons e rest ih => rw [payloadArea_cons, List.length_append, ih, byteSum_cons]

theorem dbHeader_WriteTo_buffer (h : dbHeader) (buf : List Nat) :
    h.WriteTo bufferWriter buf =
      { sink := buf ++ (h.magic ++ [h.version] ++ h.reserved ++ bigEndian32 h.nIndex ++
          bigEndian32 h.hSize),
        n := (h.magic.length + 1 + h.reserved.length + 8 : Nat),
        err := none } := by
  simp only [dbHeader.WriteTo, bufferWriter, uint32ToBytes_eq, Option.isSome_none,
    Bool.false_eq_true, if_false, List.append_assoc, bigEndian32_length, List.length_singleton,
    WriteResult.mk.injEq, and_true, true_and]
  push_cast
  ring

theorem indexLoop_buffer (buf : List Nat) (total : Int) (es : List dbEntry) :
    signature.WriteTo.indexLoop bufferWriter buf total es =
      { sink := buf ++ indexArea es, n := total + (16 * es.length : Nat), err := none } := by
  induction es generalizing buf total with
  | nil =>
    simp [signature.WriteTo.indexLoop, indexArea_nil]
  | cons e rest ih =>
    have step : signature.WriteTo.indexLoop bufferWriter buf total (e :: rest) =
        signature.WriteTo.indexLoop bufferWriter (buf ++ indexRecord e) (total + 16) rest := by
      simp only [signature.WriteTo.indexLoop, bufferWriter, uint32ToBytes_eq, Option.isSome_none,
        Bool.false_eq_true, if_false, List.append_assoc, bigEndian32_length, indexRecord]
      congr 1
      push_cast
      ring
    rw [step, ih, indexArea_cons, List.append_assoc, List.length_cons]
    congr 1
    push_cast
    ring

theorem payloadLoop_buffer (buf : List Nat) (total : Int) (es : List dbEntry) :
    signature.WriteTo.payloadLoop bufferWriter buf total es =
      { sink := buf ++ payloadArea es, n := total + (byteSum es : Nat), err := none } := by
  induction es generalizing buf total with
  | nil =>
    simp [signature.WriteTo.payloadLoop, payloadArea_nil, byteSum]
  | cons e rest ih =>
    have step : signature.WriteTo.payloadLoop bufferWriter buf total (e :: rest) =
        signature.WriteTo.payloadLoop bufferWriter (buf ++ e.payload.bytes)
          (total + (e.payload.bytes.length : Nat)) rest := by
      simp only [signature.WriteTo.payloadLoop, dbPayload.WriteTo, bufferWriter,
        Option.isSome_none, Bool.false_eq_true, if_false]
    rw [step, ih, payloadArea_cons, List.append_assoc, byteSum_cons]
    congr 1
    push_cast
    ring

/-- A `signature.WriteTo` into a buffer: what it appends and what it returns. -/
theorem signature_WriteTo_buffer (s : signature) (buf : List Nat) :
    s.WriteTo bufferWriter buf =
      { sink := buf ++ (s.header.dbHeader.magic ++ [s.header.dbHeader.version] ++
          s.header.dbHeader.reserved ++ bigEndian32 s.header.dbHeader.nIndex ++
          bigEndian32 s.header.dbHeader.hSize ++ indexArea s.header.entries ++
          payloadArea s.header.entries),
        n := (s.header.dbHeader.magic.length + 1 + s.header.dbHeader.reserved.length + 8 +
          16 * s.header.entries.length + byteSum s.header.entries : Nat),
        err := none } := by
  simp only [signature.WriteTo, dbHeader_WriteTo_buffer, indexLoop_buffer, payloadLoop_buffer,
    Option.isSome_none, Bool.false_eq_true, if_false, List.append_assoc, WriteResult.mk.injEq,
    and_true, true_and]
  push_cast
  ring

/-! ## Sample tables -/

theorem sampleTable_reachable : Reachable sampleTable :=
  Reachable.put _ _ (Reachable.put _ _ (Reachable.put _ _ Reachable.empty rfl) rfl) rfl

/-! ## Normalization of a table -/

theorem offsets_of_walk (l es : List dbEntry) (hl : l = (Header.normalize.loop 0 es).1) :
    (∀ e, l.head? = some e → e.index.offset = 0) ∧
    ∀ (i : Nat) (hi : i < l.length),
      (l.get ⟨i, hi⟩).index.offset = sizeSum (l.take i) % 2 ^ 32 := by
  subst hl
  constructor
  · intro e he
    cases es with
    | nil => cases he
    | cons x rest =>
      rw [normalize_loop_cons] at he
      cases he
      rfl
  · intro i hi
    rw [normalize_loop_offset 0 es (by norm_num) i hi, Nat.zero_add]

/-- C1: for every table built from the empty table by non-panicking `signature.put` calls,
`Header.normalize` returns without panic, the entries it leaves are a permutation of the
entries held before (entry for entry the same but for the `offset` that normalize assigns),
and their tags are strictly ascending. -/
theorem normalize_sorts_reachable (s : signature) (hs : Reachable s) :
    s.header.normalize.panic = none ∧
    (∃ p : List dbEntry, p.Perm s.header.entries ∧
      List.Forall₂ sameButOffset p s.header.normalize.state.entries) ∧
    (tags s.header.normalize.state.entries).Sorted (fun x y => x < y) := by
  have hi := inv_of_reachable hs
  refine ⟨(normalize_panic_iff _).2 hi.hSize, ⟨s.header.sort.entries, sort_perm _, ?_⟩,
    normalize_tags_sorted _ hi.nodup⟩
  rw [normalize_entries]
  exact normalize_loop_same 0 _

/-- Witness of C1 on `sampleTable`. -/
theorem normalize_sorts_reachable_witness :
    Reachable sampleTable ∧
    (sampleTable.header.normalize.panic = none ∧
    (∃ p : List dbEntry, p.Perm sampleTable.header.entries ∧
      List.Forall₂ sameButOffset p sampleTable.header.normalize.state.entries) ∧
    (tags sampleTable.header.normalize.state.entries).Sorted (fun x y => x < y)) :=
  ⟨sampleTable_reachable, normalize_sorts_reachable sampleTable sampleTable_reachable⟩

theorem offsets_after_normalize (h : Header) :
    (∀ e, h.normalize.state.entries.head? = some e → e.index.offset = 0) ∧
    ∀ (i : Nat) (hi : i < h.normalize.state.entries.length),
      (h.normalize.state.entries.get ⟨i, hi⟩).index.offset =
        sizeSum (h.normalize.state.entries.take i) % 2 ^ 32 :=
  offsets_of_walk _ _ (normalize_entries h)

theorem normalizeWith_entries (srt : List dbEntry → List dbEntry) (h : Header) :
    (h.normalizeWith srt).state.entries = (Header.normalize.loop 0 (srt h.entries)).1 := by
  unfold Header.normalizeWith
  simp only
  split_ifs <;> rfl

theorem sortSlice_sortsByTag : SortsByTag (sortSlice Header.sort.less) :=
  fun _ => ⟨List.perm_insertionSort _ _, List.sorted_insertionSort _ _⟩

/-- A second sort that meets the promise of `sort.Slice` and is not stable: it leaves
entries with equal tags in the reverse of the order `sortSlice` leaves them in. -/
theorem reversed_sortsByTag : SortsByTag (fun es => sortSlice Header.sort.less es.reverse) :=
  fun es => ⟨(List.perm_insertionSort _ _).trans (List.reverse_perm es),
    List.sorted_insertionSort _ _⟩

/-- On a header with equal tags the two sorts leave different orders, and normalize returns
without panic with either. -/
theorem sorts_differ_on_twinHeader :
    (twinHeader.normalizeWith (sortSlice Header.sort.less)).panic = none ∧
    (twinHeader.normalizeWith (fun es => sortSlice Header.sort.less es.reverse)).panic = none ∧
    offsets (twinHeader.normalizeWith (sortSlice Header.sort.less)).state.entries = [0, 1] ∧
    offsets (twinHeader.normalizeWith
      (fun es => sortSlice Header.sort.less es.reverse)).state.entries = [0, 4] := by
  decide

theorem tags_sorted_of_pairwise (es : List dbEntry)
    (h : es.Pairwise (notAfter Header.sort.less)) : (tags es).Sorted (fun x y => x ≤ y) := by
  unfold tags
  rw [List.Sorted, List.pairwise_map]
  refine List.Pairwise.imp ?_ h
  intro a b hab
  unfold notAfter Header.sort.less at hab
  omega

/-- C2: take any sort `srt` that does what `sort.Slice` promises, and any table on which
`Header.normalize` (run with that sort) returns without panic. The entries it leaves are the
entries of the table, the same but for their offsets, in an order sorted ascending by tag
(strictly when the tags are unique); in that sorted order the first entry has offset 0 and
the offset of every entry is the sum of `payload.size()` over the entries before it, in
unsigned 32-bit arithmetic. `Header.normalize` is this run with the sort `sortSlice`, which
does what `sort.Slice` promises. -/
theorem normalize_assigns_offsets (srt : List dbEntry → List dbEntry) (hsrt : SortsByTag srt)
    (h : Header) (_hn : (h.normalizeWith srt).panic = none) :
    (∃ p : List dbEntry, p.Perm h.entries ∧
      List.Forall₂ sameButOffset p (h.normalizeWith srt).state.entries) ∧
    (tags (h.normalizeWith srt).state.entries).Sorted (fun x y => x ≤ y) ∧
    ((tags h.entries).Nodup →
      (tags (h.normalizeWith srt).state.entries).Sorted (fun x y => x < y)) ∧
    (∀ e, (h.normalizeWith srt).state.entries.head? = some e → e.index.offset = 0) ∧
    (∀ (i : Nat) (hi : i < (h.normalizeWith srt).state.entries.length),
      ((h.normalizeWith srt).state.entries.get ⟨i, hi⟩).index.offset =
        sizeSum ((h.normalizeWith srt).state.entries.take i) % 2 ^ 32) ∧
    (SortsByTag (sortSlice Header.sort.less) ∧
      h.normalizeWith (sortSlice Header.sort.less) = h.normalize) := by
  have hw := offsets_of_walk _ _ (normalizeWith_entries srt h)
  have htag : tags (h.normalizeWith srt).state.entries = tags (srt h.entries) := by
    rw [normalizeWith_entries, normalize_loop_tags]
  have hsorted : (tags (h.normalizeWith srt).state.entries).Sorted (fun x y => x ≤ y) := by
    rw [htag]
    exact tags_sorted_of_pairwise _ (hsrt h.entries).2
  refine ⟨⟨srt h.entries, (hsrt h.entries).1, ?_⟩, hsorted, ?_, hw.1, hw.2,
    sortSlice_sortsByTag, rfl⟩
  · rw [normalizeWith_entries]
    exact normalize_loop_same 0 _
  · intro hn
    refine hsorted.lt_of_le ?_
    rw [htag]
    exact (((hsrt h.entries).1.map _).nodup_iff).2 hn

/-- Witness of C2 on the header of `sampleTable`, whose entries were put in descending tag
order, with the sort `sortSlice`. -/
theorem normalize_assigns_offsets_witness :
    SortsByTag (sortSlice Header.sort.less) ∧
    (sampleTable.header.normalizeWith (sortSlice Header.sort.less)).panic = none ∧
    ((∃ p : List dbEntry, p.Perm sampleTable.header.entries ∧
      List.Forall₂ sameButOffset p
        (sampleTable.header.normalizeWith (sortSlice Header.sort.less)).state.entries) ∧
    (tags (sampleTable.header.normalizeWith (sortSlice Header.sort.less)).state.entries).Sorted
      (fun x y => x ≤ y) ∧
    ((tags sampleTable.header.entries).Nodup →
      (tags (sampleTable.header.normalizeWith
        (sortSlice Header.sort.less)).state.entries).Sorted (fun x y => x < y)) ∧
    (∀ e, (sampleTable.header.normalizeWith (sortSlice Header.sort.less)).state.entries.head? =
      some e → e.index.offset = 0) ∧
    (∀ (i : Nat)
      (hi : i < (sampleTable.header.normalizeWith
        (sortSlice Header.sort.less)).state.entries.length),
      ((sampleTable.header.normalizeWith (sortSlice Header.sort.less)).state.entries.get
        ⟨i, hi⟩).index.offset =
        sizeSum ((sampleTable.header.normalizeWith
          (sortSlice Header.sort.less)).state.entries.take i) % 2 ^ 32) ∧
    (SortsByTag (sortSlice Header.sort.less) ∧
      sampleTable.header.normalizeWith (sortSlice Header.sort.less) =
        sampleTable.header.normalize)) :=
  ⟨sortSlice_sortsByTag, rfl,
    normalize_assigns_offsets (sortSlice Header.sort.less) sortSlice_sortsByTag
      sampleTable.header rfl⟩

/-! ## Offsets locate payloads -/

theorem normalizeHeader_header (s : signature) :
    s.normalizeHeader.state.header = s.header.normalize.state := rfl

theorem uint32ToBytes_length (x : Nat) : (uint32ToBytes x).length = 4 := rfl

theorem size_eq_length (p : dbPayload) (h : p.bytes.length < 2 ^ 32) :
    p.size = p.bytes.length := by
  cases p with
  | binaryPayload data => exact Nat.mod_eq_of_lt h
  | uint32Payload data => rfl
  | stringPayload data => exact Nat.mod_eq_of_lt h

theorem sizeSum_eq_byteSum (es : List dbEntry) (h : byteSum es < 2 ^ 32) :
    sizeSum es = byteSum es := by
  induction es with
  | nil => rfl
  | cons e rest ih =>
    rw [byteSum_cons] at h
    rw [sizeSum_cons, byteSum_cons, ih (by omega), size_eq_length e.payload (by omega)]

theorem byteSum_take_add_drop (es : List dbEntry) (i : Nat) :
    byteSum (es.take i) + byteSum (es.drop i) = byteSum es := by
  rw [← byteSum_append, List.take_append_drop]

theorem byteSum_eq_of_payloads (a b : List dbEntry)
    (h : a.map (fun e => e.payload) = b.map (fun e => e.payload)) : byteSum a = byteSum b := by
  have ha : byteSum a = ((a.map fun e => e.payload).map fun p => p.bytes.length).sum := by
    simp [byteSum, Function.comp_def]
  have hb : byteSum b = ((b.map fun e => e.payload).map fun p => p.bytes.length).sum := by
    simp [byteSum, Function.comp_def]
  rw [ha, hb, h]

theorem normalize_byteSum (h : Header) : byteSum h.normalize.state.entries = byteSum h.entries := by
  rw [normalize_entries, byteSum_eq_of_payloads _ _ (normalize_loop_bytes 0 _), sort_byteSum]

theorem normalize_length (h : Header) : h.normalize.state.entries.length = h.entries.length := by
  rw [normalize_entries, normalize_loop_length]
  exact (sort_perm h).length_eq

/-- In the payload area, the payload of the entry at position `i` starts after the payload
bytes of the entries before it. -/
theorem payloadArea_at (es : List dbEntry) (i : Nat) (hi : i < es.length) :
    ((payloadArea es).drop (byteSum (es.take i))).take (es.get ⟨i, hi⟩).payload.bytes.length =
      (es.get ⟨i, hi⟩).payload.bytes := by
  induction es generalizing i with
  | nil => exact absurd hi (Nat.not_lt_zero _)
  | cons e rest ih =>
    cases i with
    | zero =>
      show ((e.payload.bytes ++ payloadArea rest).drop 0).take e.payload.bytes.length = _
      rw [List.drop_zero, List.take_left]
      rfl
    | succ j =>
      have hj : j < rest.length := Nat.lt_of_succ_lt_succ hi
      show ((e.payload.bytes ++ payloadArea rest).drop (byteSum (e :: rest.take j))).take
        (rest.get ⟨j, hj⟩).payload.bytes.length = (rest.get ⟨j, hj⟩).payload.bytes
      rw [byteSum_cons, List.drop_append]
      exact ih j hj

/-- In the output of a normalized reachable table, the offset of the entry at position `i`
locates its payload. -/
theorem payload_located_at (s : signature) (hs : Reachable s)
    (hb : byteSum s.header.entries < 2 ^ 32) (i : Nat)
    (hi : i < s.normalizeHeader.state.header.entries.length) :
    s.normalizeHeader.panic = none ∧
    (s.normalizeHeader.state.WriteTo bufferWriter []).err = none ∧
    (((s.normalizeHeader.state.WriteTo bufferWriter []).sink.drop
        (16 + 16 * s.normalizeHeader.state.header.entries.length +
          (s.normalizeHeader.state.header.entries.get ⟨i, hi⟩).index.offset)).take
        (s.normalizeHeader.state.header.entries.get ⟨i, hi⟩).payload.size =
      (s.normalizeHeader.state.header.entries.get ⟨i, hi⟩).payload.bytes) := by
  have hinv := inv_of_reachable hs
  refine ⟨(normalize_panic_iff _).2 hinv.hSize, ?_, ?_⟩
  · rw [signature_WriteTo_buffer]
  · have hi2 : i < s.header.normalize.state.entries.length := hi
    show (((s.normalizeHeader.state.WriteTo bufferWriter []).sink.drop
        (16 + 16 * s.header.normalize.state.entries.length +
          (s.header.normalize.state.entries.get ⟨i, hi2⟩).index.offset)).take
        (s.header.normalize.state.entries.get ⟨i, hi2⟩).payload.size =
      (s.header.normalize.state.entries.get ⟨i, hi2⟩).payload.bytes)
    have hsink : (s.normalizeHeader.state.WriteTo bufferWriter []).sink =
        ([0x8e, 0xad, 0xe8] ++ [1] ++ [0, 0, 0, 0] ++ bigEndian32 s.header.dbHeader.nIndex ++
          bigEndian32 s.header.dbHeader.hSize ++ indexArea s.header.normalize.state.entries) ++
          payloadArea s.header.normalize.state.entries := by
      rw [signature_WriteTo_buffer]
      show [] ++ (s.header.normalize.state.dbHeader.magic ++
        [s.header.normalize.state.dbHeader.version] ++
        s.header.normalize.state.dbHeader.reserved ++
        bigEndian32 s.header.normalize.state.dbHeader.nIndex ++
        bigEndian32 s.header.normalize.state.dbHeader.hSize ++
        indexArea s.header.normalize.state.entries ++
        payloadArea s.header.normalize.state.entries) = _
      rw [normalize_dbHeader, hinv.magic, hinv.version, hinv.reserved, List.nil_append]
    have hlen : ([0x8e, 0xad, 0xe8] ++ [1] ++ [0, 0, 0, 0] ++
        bigEndian32 s.header.dbHeader.nIndex ++ bigEndian32 s.header.dbHeader.hSize ++
        indexArea s.header.normalize.state.entries).length =
        16 + 16 * s.header.normalize.state.entries.length := by
      simp only [List.length_append, indexArea_length, bigEndian32_length, List.length_cons,
        List.length_nil]
    have htot : byteSum s.header.normalize.state.entries < 2 ^ 32 := by
      rw [normalize_byteSum]; exact hb
    have hsplit := byteSum_take_add_drop s.header.normalize.state.entries i
    have hdrop : byteSum (s.header.normalize.state.entries.drop i) =
        (s.header.normalize.state.entries.get ⟨i, hi2⟩).payload.bytes.length +
          byteSum (s.header.normalize.state.entries.drop (i + 1)) := by
      rw [List.drop_eq_getElem_cons hi2, byteSum_cons]
      rfl
    have hoff : (s.header.normalize.state.entries.get ⟨i, hi2⟩).index.offset =
        byteSum (s.header.normalize.state.entries.take i) := by
      rw [(offsets_after_normalize s.header).2 i hi2,
        sizeSum_eq_byteSum _ (by omega)]
      exact Nat.mod_eq_of_lt (by omega)
    have hsize : (s.header.normalize.state.entries.get ⟨i, hi2⟩).payload.size =
        (s.header.normalize.state.entries.get ⟨i, hi2⟩).payload.bytes.length :=
      size_eq_length _ (by omega)
    rw [hsink, hoff, hsize, ← hlen, List.drop_append]
    exact payloadArea_at _ i hi2

/-- C3: take a table built from the empty table by non-panicking `signature.put` calls whose
payloads hold fewer than 2^32 bytes in total, normalize it and serialize it with
`signature.WriteTo` into an empty buffer (a sink that never fails). Neither call fails, and
for every entry `e` of the table the `e.payload.size()` bytes of the output from position
`16 + 16 * (number of entries) + e.index.offset` on are the bytes `e.payload` writes. The
number of entries is the `nIndex` of the preamble when it is below 2^32. -/
theorem offset_locates_payload (s : signature) (hs : Reachable s)
    (hb : byteSum s.header.entries < 2 ^ 32) :
    s.normalizeHeader.panic = none ∧
    (s.normalizeHeader.state.WriteTo bufferWriter []).err = none ∧
    (∀ e ∈ s.normalizeHeader.state.header.entries,
      ((s.normalizeHeader.state.WriteTo bufferWriter []).sink.drop
        (16 + 16 * s.normalizeHeader.state.header.entries.length + e.index.offset)).take
        e.payload.size = e.payload.bytes) ∧
    (s.normalizeHeader.state.header.entries.length < 2 ^ 32 →
      s.normalizeHeader.state.header.dbHeader.nIndex =
        s.normalizeHeader.state.header.entries.length) := by
  have hinv := inv_of_reachable hs
  refine ⟨(normalize_panic_iff _).2 hinv.hSize, ?_, ?_, ?_⟩
  · rw [signature_WriteTo_buffer]
  · intro e he
    rcases List.mem_iff_get.1 he with ⟨⟨i, hi⟩, rfl⟩
    exact (payload_located_at s hs hb i hi).2.2
  · intro hl
    rw [normalizeHeader_header, normalize_length] at hl ⊢
    rw [normalize_dbHeader, hinv.nIndex, Nat.mod_eq_of_lt hl]

/-- Witness of C3 on `sampleTable`. -/
theorem offset_locates_payload_witness :
    Reachable sampleTable ∧ byteSum sampleTable.header.entries < 2 ^ 32 ∧
    (sampleTable.normalizeHeader.panic = none ∧
    (sampleTable.normalizeHeader.state.WriteTo bufferWriter []).err = none ∧
    (∀ e ∈ sampleTable.normalizeHeader.state.header.entries,
      ((sampleTable.normalizeHeader.state.WriteTo bufferWriter []).sink.drop
        (16 + 16 * sampleTable.normalizeHeader.state.header.entries.length +
          e.index.offset)).take
        e.payload.size = e.payload.bytes) ∧
    (sampleTable.normalizeHeader.state.header.entries.length < 2 ^ 32 →
      sampleTable.normalizeHeader.state.header.dbHeader.nIndex =
        sampleTable.normalizeHeader.state.header.entries.length)) :=
  ⟨sampleTable_reachable, by decide,
    offset_locates_payload sampleTable sampleTable_reachable (by decide)⟩

/-! ## A table that holds every tag -/

theorem tags_emptyEntries (ts : List Nat) : tags (emptyEntries ts) = ts := by
  induction ts with
  | nil => rfl
  | cons t rest ih =>
    show t :: tags (emptyEntries rest) = t :: rest
    rw [ih]

theorem byteSum_emptyEntries (ts : List Nat) : byteSum (emptyEntries ts) = 0 := by
  induction ts with
  | nil => rfl
  | cons t rest ih =>
    show byteSum (binaryEntry t [] :: emptyEntries rest) = 0
    rw [byteSum_cons, ih]
    rfl

theorem emptyEntries_length (ts : List Nat) : (emptyEntries ts).length = ts.length :=
  List.length_map _ _

/-- Entries with fresh, pairwise distinct tags are appended one by one. -/
theorem putAll_fresh (l : List dbEntry) (s : signature) (hs : Reachable s)
    (hn : (tags l).Nodup) (hd : ∀ t ∈ tags l, t ∉ tags s.header.entries) :
    Reachable (putAll s l) ∧ (putAll s l).header.entries = s.header.entries ++ l := by
  induction l generalizing s with
  | nil => exact ⟨hs, (List.append_nil _).symm⟩
  | cons e rest ih =>
    have he : ∀ en ∈ s.header.entries, en.index.tag ≠ e.index.tag := by
      intro en hen heq
      exact hd e.index.tag (List.mem_cons_self _ _) (mem_tags.2 ⟨en, hen, heq⟩)
    have hput := put_of_absent s e he
    have hr : Reachable (s.put e).state := Reachable.put s e hs (by rw [hput])
    rw [tags_cons, List.nodup_cons] at hn
    have hd2 : ∀ t ∈ tags rest, t ∉ tags (s.put e).state.header.entries := by
      intro t ht hmem
      rw [hput] at hmem
      change t ∈ tags (s.header.entries ++ [e]) at hmem
      rw [tags_append, List.mem_append] at hmem
      rcases hmem with h1 | h1
      · exact hd t (List.mem_cons_of_mem _ ht) h1
      · rw [tags_cons] at h1
        rcases List.mem_cons.1 h1 with h2 | h2
        · exact hn.1 (h2 ▸ ht)
        · exact absurd h2 (List.not_mem_nil _)
    have key := ih (s.put e).state hr hn.2 hd2
    refine ⟨key.1, ?_⟩
    show (putAll (s.put e).state rest).header.entries = _
    rw [key.2, hput]
    show (s.header.entries ++ [e]) ++ rest = _
    rw [List.append_assoc]
    rfl

theorem putAll_emptyEntries (ts : List Nat) (hn : ts.Nodup) :
    Reachable (putAll emptySignature (emptyEntries ts)) ∧
      (putAll emptySignature (emptyEntries ts)).header.entries.length = ts.length ∧
      byteSum (putAll emptySignature (emptyEntries ts)).header.entries = 0 := by
  have key := putAll_fresh (emptyEntries ts) emptySignature Reachable.empty
    (by rw [tags_emptyEntries]; exact hn)
    (fun t _ hmem => absurd hmem (List.not_mem_nil _))
  have hent : (putAll emptySignature (emptyEntries ts)).header.entries = emptyEntries ts := by
    rw [key.2]
    exact List.nil_append _
  refine ⟨key.1, ?_, ?_⟩
  · rw [hent, emptyEntries_length]
  · rw [hent, byteSum_emptyEntries]

theorem fullTable_facts :
    Reachable fullTable ∧ fullTable.header.entries.length = 2 ^ 32 ∧
      byteSum fullTable.header.entries = 0 := by
  have key := putAll_emptyEntries (List.range (2 ^ 32)) (List.nodup_range _)
  rw [List.length_range] at key
  unfold fullTable
  exact key

/-! ## The invariant of put (C4) -/

/-- Counterexample to C4 as stated: the table built by putting one entry for each of the
2^32 tags is built by non-panicking puts only, and its `nIndex` (which has wrapped to 0) is
not its number of entries. -/
theorem nIndex_wraps_on_fullTable :
    Reachable fullTable ∧
      fullTable.header.dbHeader.nIndex ≠ fullTable.header.entries.length := by
  refine ⟨fullTable_facts.1, ?_⟩
  rw [(inv_of_reachable fullTable_facts.1).nIndex, fullTable_facts.2.1, Nat.mod_self]
  norm_num

/-- C4 (amended): in every table built from the empty table by non-panicking `signature.put`
calls the tags are pairwise distinct, `nIndex` is the number of entries modulo 2^32 (the
number itself when there are fewer than 2^32 entries), `hSize` is the sum of the payload
sizes modulo 2^32 (the sum itself when it is below 2^32), and `Header.normalize` does not
take its panic branch. -/
theorem reachable_invariant (s : signature) (hs : Reachable s) :
    (tags s.header.entries).Nodup ∧
    s.header.dbHeader.nIndex = s.header.entries.length % 2 ^ 32 ∧
    (s.header.entries.length < 2 ^ 32 → s.header.dbHeader.nIndex = s.header.entries.length) ∧
    s.header.dbHeader.hSize = sizeSum s.header.entries % 2 ^ 32 ∧
    (sizeSum s.header.entries < 2 ^ 32 → s.header.dbHeader.hSize = sizeSum s.header.entries) ∧
    s.header.normalize.panic = none := by
  have hi := inv_of_reachable hs
  refine ⟨hi.nodup, hi.nIndex, ?_, hi.hSize, ?_, (normalize_panic_iff _).2 hi.hSize⟩
  · intro h
    rw [hi.nIndex, Nat.mod_eq_of_lt h]
  · intro h
    rw [hi.hSize, Nat.mod_eq_of_lt h]

/-- Witness of C4 (amended) on `sampleTable`. -/
theorem reachable_invariant_witness :
    Reachable sampleTable ∧
    ((tags sampleTable.header.entries).Nodup ∧
    sampleTable.header.dbHeader.nIndex = sampleTable.header.entries.length % 2 ^ 32 ∧
    (sampleTable.header.entries.length < 2 ^ 32 →
      sampleTable.header.dbHeader.nIndex = sampleTable.header.entries.length) ∧
    sampleTable.header.dbHeader.hSize = sizeSum sampleTable.header.entries % 2 ^ 32 ∧
    (sizeSum sampleTable.header.entries < 2 ^ 32 →
      sampleTable.header.dbHeader.hSize = sizeSum sampleTable.header.entries) ∧
    sampleTable.header.normalize.panic = none) :=
  ⟨sampleTable_reachable, reachable_invariant sampleTable sampleTable_reachable⟩

/-! ## The layout of the output (C5) -/

/-- C5: for every table (a preamble made by `newDbHeader` with any `nIndex` and `hSize`, and
any entries), `signature.WriteTo` into a buffer, a sink that never fails, appends: the bytes
0x8E 0xAD 0xE8, 0x01, 0x00 0x00 0x00 0x00, big-endian `nIndex`, big-endian `hSize` (16
bytes); then for each entry in stored order big-endian tag, dataType, offset, count (16 bytes
each); then the payload bytes of every entry in that same order. -/
theorem WriteTo_layout (nIndex hSize : Nat) (es : List dbEntry) (buf : List Nat) :
    ((signature.mk
        { dbHeader := { newDbHeader with nIndex := nIndex, hSize := hSize },
          entries := es }).WriteTo bufferWriter buf).sink =
      buf ++ ([0x8e, 0xad, 0xe8, 0x01, 0x00, 0x00, 0x00, 0x00] ++ bigEndian32 nIndex ++
        bigEndian32 hSize ++
        es.flatMap (fun e => bigEndian32 e.index.tag ++ bigEndian32 e.index.dataType ++
          bigEndian32 e.index.offset ++ bigEndian32 e.index.count) ++
        es.flatMap (fun e => e.payload.bytes)) ∧
    ([0x8e, 0xad, 0xe8, 0x01, 0x00, 0x00, 0x00, 0x00] ++ bigEndian32 nIndex ++
        bigEndian32 hSize).length = 16 ∧
    ∀ e : dbEntry, (bigEndian32 e.index.tag ++ bigEndian32 e.index.dataType ++
          bigEndian32 e.index.offset ++ bigEndian32 e.index.count).length = 16 := by
  refine ⟨?_, rfl, fun _ => rfl⟩
  rw [signature_WriteTo_buffer]
  rfl

/-! ## The table of newSignature -/

theorem sixPuts_reachable : Reachable sixPuts :=
  Reachable.put _ _ (Reachable.put _ _ (Reachable.put _ _ (Reachable.put _ _
    (Reachable.put _ _ (Reachable.put _ _ Reachable.empty rfl) rfl) rfl) rfl) rfl) rfl

theorem next_of_no_panic {α : Type} (o : Outcome α) (f : α → Outcome α) (h : o.panic = none) :
    o.next f = f o.state := by
  unfold Outcome.next
  rw [h]

theorem newSignature_eq : newSignature = sixPuts.normalizeHeader := by
  unfold newSignature
  simp only
  rw [next_of_no_panic _ _ rfl, next_of_no_panic _ _ rfl, next_of_no_panic _ _ rfl,
    next_of_no_panic _ _ rfl, next_of_no_panic _ _ rfl, next_of_no_panic _ _ rfl,
    next_of_no_panic _ _ rfl]
  rfl

theorem normalizeHeader_panic (s : signature) :
    s.normalizeHeader.panic = s.header.normalize.panic := rfl

theorem sixPuts_entries : sixPuts.header.entries =
    [binaryEntry 0x3f0 (makeBytes 4096),
      stringEntry 0x10d (ascii "xxxxxxxxxxxxxxxxxxxxxxxxxxxxxxxxxxxxxxxx"),
      uint32Entry 0x3e8 0, binaryEntry 0x3ec (makeBytes 16), uint32Entry 0x3ef 0,
      binaryEntry 0x3e (headerSignatures 6)] := rfl

theorem sixPuts_byteSum : byteSum sixPuts.header.entries = 4176 := by
  rw [sixPuts_entries]
  simp only [byteSum, binaryEntry, stringEntry, uint32Entry, dbPayload.bytes, makeBytes,
    uint32ToBytes_length, List.map_cons, List.map_nil, List.length_replicate, List.sum_cons,
    List.sum_nil]
  rfl

theorem sixPuts_sorted : sixPuts.header.sort.entries =
    [binaryEntry 0x3e (headerSignatures 6),
      stringEntry 0x10d (ascii "xxxxxxxxxxxxxxxxxxxxxxxxxxxxxxxxxxxxxxxx"),
      uint32Entry 0x3e8 0, binaryEntry 0x3ec (makeBytes 16), uint32Entry 0x3ef 0,
      binaryEntry 0x3f0 (makeBytes 4096)] := by
  show sortSlice _ sixPuts.header.entries = _
  rw [sixPuts_entries]
  rfl

theorem newSignature_panic : newSignature.panic = none := by
  rewrite [newSignature_eq, normalizeHeader_panic]
  exact (normalize_panic_iff _).2 (inv_of_reachable sixPuts_reachable).hSize

/-- The entries of the table `newSignature` returns, with the offsets normalize assigned. -/
theorem newSignature_entries : newSignature.state.header.entries =
    [withOffset (binaryEntry 0x3e (headerSignatures 6)) 0,
      withOffset (stringEntry 0x10d (ascii "xxxxxxxxxxxxxxxxxxxxxxxxxxxxxxxxxxxxxxxx")) 16,
      withOffset (uint32Entry 0x3e8 0) 56, withOffset (binaryEntry 0x3ec (makeBytes 16)) 60,
      withOffset (uint32Entry 0x3ef 0) 76,
      withOffset (binaryEntry 0x3f0 (makeBytes 4096)) 80] := by
  rewrite [newSignature_eq, normalizeHeader_header, normalize_entries, sixPuts_sorted]
  have h1 : (headerSignatures 6).length = 16 := rfl
  have h2 : (ascii "xxxxxxxxxxxxxxxxxxxxxxxxxxxxxxxxxxxxxxxx").length = 40 := rfl
  have h3 : ∀ n, (makeBytes n).length = n := fun n => List.length_replicate _ _
  have hb : ∀ t d, (binaryEntry t d).payload.size = d.length % 2 ^ 32 := fun _ _ => rfl
  have hs : ∀ t d, (stringEntry t d).payload.size = d.length % 2 ^ 32 := fun _ _ => rfl
  have hu : ∀ t d, (uint32Entry t d).payload.size = 4 := fun _ _ => rfl
  simp only [normalize_loop_cons, normalize_loop_nil, hb, hs, hu, h1, h2, h3, Nat.reduceAdd,
    Nat.reduceMod, Nat.reducePow, Nat.zero_add]
  rfl

/-! ## The length of the output (C6) -/

theorem WriteTo_buffer_count (t : signature) (hm : t.header.dbHeader.magic = [0x8e, 0xad, 0xe8])
    (hr : t.header.dbHeader.reserved = [0x0, 0x0, 0x0, 0x0]) :
    (t.WriteTo bufferWriter []).err = none ∧
    (t.WriteTo bufferWriter []).n = ((t.WriteTo bufferWriter []).sink.length : Nat) ∧
    (t.WriteTo bufferWriter []).n =
      ((16 + 16 * t.header.entries.length + byteSum t.header.entries : Nat) : Int) := by
  rw [signature_WriteTo_buffer, hm, hr]
  refine ⟨rfl, ?_, ?_⟩
  · show ((_ : Nat) : Int) = ((_ : Nat) : Int)
    congr 1
    simp only [List.nil_append, List.length_append, indexArea_length, payloadArea_length,
      bigEndian32_length, List.length_cons, List.length_nil]
  · show ((_ : Nat) : Int) = ((_ : Nat) : Int)
    congr 1

theorem buffer_count_of_inv (t : signature) (hi : Inv t) (hb : byteSum t.header.entries < 2 ^ 32)
    (hl : t.header.entries.length < 2 ^ 32) :
    (t.WriteTo bufferWriter []).err = none ∧
    (t.WriteTo bufferWriter []).n = ((t.WriteTo bufferWriter []).sink.length : Nat) ∧
    (t.WriteTo bufferWriter []).n =
      16 + 16 * (t.header.dbHeader.nIndex : Int) + (t.header.dbHeader.hSize : Int) := by
  have key := WriteTo_buffer_count t hi.magic hi.reserved
  refine ⟨key.1, key.2.1, ?_⟩
  rw [key.2.2, hi.nIndex, hi.hSize, sizeSum_eq_byteSum _ hb, Nat.mod_eq_of_lt hl,
    Nat.mod_eq_of_lt hb]
  push_cast
  ring

theorem inv_normalizeHeader (s : signature) (hi : Inv s) : Inv s.normalizeHeader.state := by
  have hd : s.normalizeHeader.state.header.dbHeader = s.header.dbHeader := normalize_dbHeader _
  have he : s.normalizeHeader.state.header.entries = s.header.normalize.state.entries := rfl
  refine ⟨hd ▸ hi.magic, hd ▸ hi.version, hd ▸ hi.reserved, ?_, ?_, ?_⟩
  · rw [he, normalize_entries, normalize_loop_tags]
    exact (sort_tags_perm _).nodup_iff.2 hi.nodup
  · rw [hd, he, normalize_length]
    exact hi.nIndex
  · rw [hd, he, normalize_entries, normalize_loop_sizeSum, sort_sizeSum]
    exact hi.hSize

/-- Counterexample to C6 as stated: `fullTable` is built by non-panicking puts, its payloads
hold 0 bytes, the write into a buffer returns no error, and the count returned is not
`16 + 16 * nIndex + hSize` (`nIndex` has wrapped to 0 while 2^32 index records are written). -/
theorem count_mismatch_on_fullTable :
    Reachable fullTable ∧ byteSum fullTable.header.entries < 2 ^ 32 ∧
    (fullTable.WriteTo bufferWriter []).err = none ∧
    (fullTable.WriteTo bufferWriter []).n ≠
      16 + 16 * (fullTable.header.dbHeader.nIndex : Int) +
        (fullTable.header.dbHeader.hSize : Int) := by
  have hf := fullTable_facts
  have hi := inv_of_reachable hf.1
  have key := WriteTo_buffer_count fullTable hi.magic hi.reserved
  have hsz : sizeSum fullTable.header.entries = 0 := by
    rw [sizeSum_eq_byteSum _ (by rw [hf.2.2]; norm_num), hf.2.2]
  refine ⟨hf.1, by rw [hf.2.2]; norm_num, key.1, ?_⟩
  rw [key.2.2, hi.nIndex, hi.hSize, hsz, hf.2.1, hf.2.2, Nat.mod_self, Nat.zero_mod]
  norm_num

/-- C6 (amended): let `s` be built from the empty table by non-panicking `signature.put`
calls, with fewer than 2^32 payload bytes in total and fewer than 2^32 entries, and let `t`
be `s` or `s` normalized. `signature.WriteTo` of `t` into an empty buffer (a sink that never
fails) returns no error and a count that is the number of bytes written and equals
`16 + 16 * nIndex + hSize`. For the table of `newSignature`, which is built without panic, the
count is 4288. -/
theorem WriteTo_count (s : signature) (hs : Reachable s)
    (hb : byteSum s.header.entries < 2 ^ 32) (hl : s.header.entries.length < 2 ^ 32)
    (t : signature) (ht : t = s ∨ t = s.normalizeHeader.state) :
    ((t.WriteTo bufferWriter []).err = none ∧
      (t.WriteTo bufferWriter []).n = ((t.WriteTo bufferWriter []).sink.length : Nat) ∧
      (t.WriteTo bufferWriter []).n =
        16 + 16 * (t.header.dbHeader.nIndex : Int) + (t.header.dbHeader.hSize : Int)) ∧
    (newSignature.panic = none ∧ (newSignature.state.WriteTo bufferWriter []).err = none ∧
      (newSignature.state.WriteTo bufferWriter []).n = 4288) := by
  have hi := inv_of_reachable hs
  constructor
  · rcases ht with rfl | rfl
    · exact buffer_count_of_inv _ hi hb hl
    · refine buffer_count_of_inv _ (inv_normalizeHeader _ hi) ?_ ?_
      · rw [normalizeHeader_header, normalize_byteSum]; exact hb
      · rw [normalizeHeader_header, normalize_length]; exact hl
  · have hi6 := inv_normalizeHeader _ (inv_of_reachable sixPuts_reachable)
    have key := WriteTo_buffer_count sixPuts.normalizeHeader.state hi6.magic hi6.reserved
    rewrite [normalizeHeader_header, normalize_length, normalize_byteSum, sixPuts_byteSum,
      sixPuts_entries] at key
    rewrite [newSignature_eq]
    exact ⟨newSignature_eq ▸ newSignature_panic, key.1, key.2.2⟩

/-- Witness of C6 (amended) on `sampleTable`, normalized. -/
theorem WriteTo_count_witness :
    Reachable sampleTable ∧ byteSum sampleTable.header.entries < 2 ^ 32 ∧
    sampleTable.header.entries.length < 2 ^ 32 ∧
    (((sampleTable.normalizeHeader.state.WriteTo bufferWriter []).err = none ∧
      (sampleTable.normalizeHeader.state.WriteTo bufferWriter []).n =
        ((sampleTable.normalizeHeader.state.WriteTo bufferWriter []).sink.length : Nat) ∧
      (sampleTable.normalizeHeader.state.WriteTo bufferWriter []).n =
        16 + 16 * (sampleTable.normalizeHeader.state.header.dbHeader.nIndex : Int) +
          (sampleTable.normalizeHeader.state.header.dbHeader.hSize : Int)) ∧
    (newSignature.panic = none ∧ (newSignature.state.WriteTo bufferWriter []).err = none ∧
      (newSignature.state.WriteTo bufferWriter []).n = 4288)) :=
  ⟨sampleTable_reachable, by decide, by decide,
    WriteTo_count sampleTable sampleTable_reachable (by decide) (by decide) _ (Or.inr rfl)⟩

/-! ## put on a fresh tag (C7) -/

/-- C7: when no entry of the table has the tag of `e`, `signature.put(e)` returns without
panic, the entries afterwards are the previous entries, unchanged and in the same order,
followed by `e`, `nIndex` has grown by 1 and `hSize` by `e.payload.size()`, both in unsigned
32-bit arithmetic (modulo 2^32), and the other preamble fields are untouched. -/
theorem put_appends_fresh (s : signature) (e : dbEntry)
    (h : ∀ en ∈ s.header.entries, en.index.tag ≠ e.index.tag) :
    (s.put e).panic = none ∧
    (s.put e).state.header.entries = s.header.entries ++ [e] ∧
    (s.put e).state.header.dbHeader.nIndex = (s.header.dbHeader.nIndex + 1) % 2 ^ 32 ∧
    (s.put e).state.header.dbHeader.hSize =
      (s.header.dbHeader.hSize + e.payload.size) % 2 ^ 32 ∧
    (s.put e).state.header.dbHeader.magic = s.header.dbHeader.magic ∧
    (s.put e).state.header.dbHeader.version = s.header.dbHeader.version ∧
    (s.put e).state.header.dbHeader.reserved = s.header.dbHeader.reserved := by
  rw [put_of_absent s e h]
  exact ⟨rfl, rfl, rfl, rfl, rfl, rfl, rfl⟩

/-- Witness of C7: tag 7 put into `sampleTable`. -/
theorem put_appends_fresh_witness :
    (∀ en ∈ sampleTable.header.entries, en.index.tag ≠ (uint32Entry 7 3).index.tag) ∧
    ((sampleTable.put (uint32Entry 7 3)).panic = none ∧
    (sampleTable.put (uint32Entry 7 3)).state.header.entries =
      sampleTable.header.entries ++ [uint32Entry 7 3] ∧
    (sampleTable.put (uint32Entry 7 3)).state.header.dbHeader.nIndex =
      (sampleTable.header.dbHeader.nIndex + 1) % 2 ^ 32 ∧
    (sampleTable.put (uint32Entry 7 3)).state.header.dbHeader.hSize =
      (sampleTable.header.dbHeader.hSize + (uint32Entry 7 3).payload.size) % 2 ^ 32 ∧
    (sampleTable.put (uint32Entry 7 3)).state.header.dbHeader.magic =
      sampleTable.header.dbHeader.magic ∧
    (sampleTable.put (uint32Entry 7 3)).state.header.dbHeader.version =
      sampleTable.header.dbHeader.version ∧
    (sampleTable.put (uint32Entry 7 3)).state.header.dbHeader.reserved =
      sampleTable.header.dbHeader.reserved) :=
  ⟨by decide, put_appends_fresh sampleTable (uint32Entry 7 3) (by decide)⟩

/-! ## put on a present tag (C8, C9) -/

theorem getElem?_length_append (a b : List dbEntry) (x : dbEntry) :
    (a ++ x :: b)[a.length]? = some x := by
  rw [List.getElem?_append_right (Nat.le_refl _), Nat.sub_self]
  exact List.getElem?_cons_zero

theorem putAt_ok (s : signature) (e en : dbEntry) (k : Nat)
    (hdt : en.index.dataType = e.index.dataType) (hc : en.index.count = e.index.count)
    (hsz : en.payload.size = e.payload.size) :
    putAt s e en k =
      { state := { s with header := { s.header with entries := s.header.entries.set k e } },
        panic := none } := by
  unfold putAt
  rw [if_neg (not_not.2 hc), if_neg (not_not.2 hdt), if_neg (not_not.2 hsz)]

theorem putAt_panic_iff (s : signature) (e en : dbEntry) (k : Nat) :
    (putAt s e en k).panic ≠ none ↔
      (en.index.dataType ≠ e.index.dataType ∨ en.index.count ≠ e.index.count ∨
        en.payload.size ≠ e.payload.size) := by
  unfold putAt
  split_ifs with h1 h2 h3
  · exact ⟨fun _ => Or.inr (Or.inl h1), fun _ => Option.some_ne_none _⟩
  · exact ⟨fun _ => Or.inl h2, fun _ => Option.some_ne_none _⟩
  · exact ⟨fun _ => Or.inr (Or.inr h3), fun _ => Option.some_ne_none _⟩
  · constructor
    · intro h
      exact absurd rfl h
    · rintro (h | h | h)
      · exact absurd h h2
      · exact absurd h h1
      · exact absurd h h3

theorem putAt_state_of_panic (s : signature) (e en : dbEntry) (k : Nat)
    (h : (putAt s e en k).panic ≠ none) : (putAt s e en k).state = s := by
  unfold putAt at h ⊢
  split_ifs at h ⊢ with h1 h2 h3
  · rfl
  · rfl
  · rfl
  · exact absurd rfl h

/-- Every call of `signature.put` that panics leaves the table as it was. -/
theorem put_state_of_panic (s : signature) (e : dbEntry) (h : (s.put e).panic ≠ none) :
    (s.put e).state = s := by
  rcases split_at_tag e.index.tag s.header.entries with h0 | ⟨a, en, b, h1, h2, h3⟩
  · rw [put_of_absent s e h0] at h
    exact absurd rfl h
  · rw [put_of_present s e en a b h1 h2 h3] at h ⊢
    exact putAt_state_of_panic s e en a.length h

/-- C8: in a table with unique tags that holds an entry `en` with the tag, dataType, count
and payload size of `e`, `signature.put(e)` does not panic, leaves the number of entries and
the preamble (`nIndex`, `hSize`) unchanged, leaves every entry with another tag unchanged at
its position, and afterwards the entries that carry the tag of `e` are `e` alone, so the one
entry with that tag has the payload of `e`. -/
theorem put_replaces_payload (s : signature) (e en : dbEntry)
    (hn : (tags s.header.entries).Nodup) (hmem : en ∈ s.header.entries)
    (htag : en.index.tag = e.index.tag) (hdt : en.index.dataType = e.index.dataType)
    (hc : en.index.count = e.index.count) (hsz : en.payload.size = e.payload.size) :
    (s.put e).panic = none ∧
    (s.put e).state.header.entries.length = s.header.entries.length ∧
    (s.put e).state.header.dbHeader = s.header.dbHeader ∧
    (∀ (i : Nat) (x : dbEntry), s.header.entries[i]? = some x → x.index.tag ≠ e.index.tag →
      (s.put e).state.header.entries[i]? = some x) ∧
    (s.put e).state.header.entries.filter (fun x => decide (x.index.tag = e.index.tag)) = [e] ∧
    ∀ x ∈ (s.put e).state.header.entries, x.index.tag = e.index.tag → x.payload = e.payload := by
  rcases split_at_tag e.index.tag s.header.entries with h0 | ⟨a, en1, b, h1, h2, h3⟩
  · exact absurd htag (h0 en hmem)
  · have hnd := hn
    rw [h1, tags_append, tags_cons] at hnd
    have hb : ∀ x ∈ b, x.index.tag ≠ e.index.tag := by
      intro x hx hxt
      have hnd2 := (List.nodup_append.1 hnd).2.1
      rw [List.nodup_cons] at hnd2
      exact hnd2.1 (mem_tags.2 ⟨x, hx, hxt.trans h3.symm⟩)
    have hen : en = en1 := by
      rw [h1] at hmem
      rcases List.mem_append.1 hmem with hm | hm
      · exact absurd htag (h2 en hm)
      · rcases List.mem_cons.1 hm with hm | hm
        · exact hm
        · exact absurd htag (hb en hm)
    subst hen
    have hfil : (a ++ e :: b).filter (fun x => decide (x.index.tag = e.index.tag)) = [e] := by
      have ha0 : a.filter (fun x => decide (x.index.tag = e.index.tag)) = [] :=
        List.filter_eq_nil_iff.2 fun x hx => by simpa using h2 x hx
      have hb0 : b.filter (fun x => decide (x.index.tag = e.index.tag)) = [] :=
        List.filter_eq_nil_iff.2 fun x hx => by simpa using hb x hx
      rw [List.filter_append, ha0, List.filter_cons_of_pos (by simp), hb0]
      rfl
    rw [put_of_present s e en a b h1 h2 h3, putAt_ok s e en a.length hdt hc hsz]
    refine ⟨rfl, ?_, rfl, ?_, ?_, ?_⟩
    · show (s.header.entries.set a.length e).length = _
      rw [List.length_set]
    · intro i x hx hxt
      show (s.header.entries.set a.length e)[i]? = some x
      by_cases hia : a.length = i
      · subst hia
        rw [h1, getElem?_length_append] at hx
        exact absurd (Option.some.inj hx ▸ h3) hxt
      · rw [List.getElem?_set_ne hia]
        exact hx
    · show (s.header.entries.set a.length e).filter _ = [e]
      rw [h1, set_length_append]
      exact hfil
    · intro x hx hxt
      change x ∈ s.header.entries.set a.length e at hx
      rw [h1, set_length_append] at hx
      have hx2 : x ∈ (a ++ e :: b).filter (fun x => decide (x.index.tag = e.index.tag)) :=
        List.mem_filter.2 ⟨hx, by simpa using hxt⟩
      rw [hfil] at hx2
      rw [List.mem_singleton.1 hx2]

/-- Witness of C8: the payload of tag 5 of `sampleTable` replaced. -/
theorem put_replaces_payload_witness :
    (tags sampleTable.header.entries).Nodup ∧ binaryEntry 5 [1, 2, 3] ∈ sampleTable.header.entries ∧
    ((sampleTable.put (binaryEntry 5 [7, 8, 9])).panic = none ∧
    (sampleTable.put (binaryEntry 5 [7, 8, 9])).state.header.entries.length =
      sampleTable.header.entries.length ∧
    (sampleTable.put (binaryEntry 5 [7, 8, 9])).state.header.dbHeader =
      sampleTable.header.dbHeader ∧
    (∀ (i : Nat) (x : dbEntry), sampleTable.header.entries[i]? = some x →
      x.index.tag ≠ (binaryEntry 5 [7, 8, 9]).index.tag →
      (sampleTable.put (binaryEntry 5 [7, 8, 9])).state.header.entries[i]? = some x) ∧
    (sampleTable.put (binaryEntry 5 [7, 8, 9])).state.header.entries.filter
      (fun x => decide (x.index.tag = (binaryEntry 5 [7, 8, 9]).index.tag)) =
        [binaryEntry 5 [7, 8, 9]] ∧
    ∀ x ∈ (sampleTable.put (binaryEntry 5 [7, 8, 9])).state.header.entries,
      x.index.tag = (binaryEntry 5 [7, 8, 9]).index.tag →
      x.payload = (binaryEntry 5 [7, 8, 9]).payload) :=
  ⟨by decide, by decide,
    put_replaces_payload sampleTable (binaryEntry 5 [7, 8, 9]) (binaryEntry 5 [1, 2, 3])
      (by decide) (by decide) rfl rfl rfl rfl⟩

/-- C9: when `en` is the first entry of the table with the tag of `e`, `signature.put(e)`
panics if and only if `en` differs from `e` in dataType, in count or in payload size; and
whenever it panics the table (entries with their index records and payloads, `nIndex`,
`hSize`) is exactly what it was before the call. -/
theorem put_panics_iff_mismatch (s : signature) (e en : dbEntry)
    (hfirst : s.header.entries.find? (fun x => decide (x.index.tag = e.index.tag)) = some en) :
    ((s.put e).panic ≠ none ↔
      (en.index.dataType ≠ e.index.dataType ∨ en.index.count ≠ e.index.count ∨
        en.payload.size ≠ e.payload.size)) ∧
    ((s.put e).panic ≠ none → (s.put e).state = s) := by
  rcases List.find?_eq_some.1 hfirst with ⟨hp, a, b, hs, ha⟩
  have h3 : en.index.tag = e.index.tag := by simpa using hp
  have h2 : ∀ x ∈ a, x.index.tag ≠ e.index.tag := fun x hx => by simpa using ha x hx
  refine ⟨?_, put_state_of_panic s e⟩
  rw [put_of_present s e en a b hs h2 h3]
  exact putAt_panic_iff s e en a.length

/-- Witness of C9: a string entry put on tag 5 of `sampleTable`, which holds a binary entry. -/
theorem put_panics_iff_mismatch_witness :
    sampleTable.header.entries.find?
      (fun x => decide (x.index.tag = (stringEntry 5 [1, 2, 3]).index.tag)) =
        some (binaryEntry 5 [1, 2, 3]) ∧
    (((sampleTable.put (stringEntry 5 [1, 2, 3])).panic ≠ none ↔
      ((binaryEntry 5 [1, 2, 3]).index.dataType ≠ (stringEntry 5 [1, 2, 3]).index.dataType ∨
        (binaryEntry 5 [1, 2, 3]).index.count ≠ (stringEntry 5 [1, 2, 3]).index.count ∨
        (binaryEntry 5 [1, 2, 3]).payload.size ≠ (stringEntry 5 [1, 2, 3]).payload.size)) ∧
    ((sampleTable.put (stringEntry 5 [1, 2, 3])).panic ≠ none →
      (sampleTable.put (stringEntry 5 [1, 2, 3])).state = sampleTable)) :=
  ⟨by decide, put_panics_iff_mismatch sampleTable (stringEntry 5 [1, 2, 3])
    (binaryEntry 5 [1, 2, 3]) (by decide)⟩

/-! ## put after normalize (C10) -/

/-- C10, the code at the failing input: `newSignature` returns a table in which the index
record of tag 0x3e8 has offset 56; `put(uint32Entry(0x3e8, 5))` on that table takes the
replace path without panic, and afterwards the index record stored for tag 0x3e8 has
offset 0, the offset of the entry passed in. -/
theorem put_after_normalize_resets_offset :
    newSignature.panic = none ∧
    (newSignature.state.header.entries.find? (fun x => decide (x.index.tag = 0x3e8))).map
      (fun x => x.index) = some { tag := 0x3e8, dataType := 4, offset := 56, count := 1 } ∧
    (newSignature.state.put (uint32Entry 0x3e8 5)).panic = none ∧
    ((newSignature.state.put (uint32Entry 0x3e8 5)).state.header.entries.find?
      (fun x => decide (x.index.tag = 0x3e8))).map (fun x => x.index) =
        some { tag := 0x3e8, dataType := 4, offset := 0, count := 1 } := by
  have h := put_of_present newSignature.state (uint32Entry 0x3e8 5)
    (withOffset (uint32Entry 0x3e8 0) 56)
    [withOffset (binaryEntry 0x3e (headerSignatures 6)) 0,
      withOffset (stringEntry 0x10d (ascii "xxxxxxxxxxxxxxxxxxxxxxxxxxxxxxxxxxxxxxxx")) 16]
    [withOffset (binaryEntry 0x3ec (makeBytes 16)) 60,
      withOffset (uint32Entry 0x3ef 0) 76, withOffset (binaryEntry 0x3f0 (makeBytes 4096)) 80]
    newSignature_entries (by decide) rfl
  refine ⟨newSignature_panic, ?_, ?_, ?_⟩
  · rewrite [newSignature_entries]
    rfl
  · rewrite [h]
    rfl
  · rewrite [h]
    unfold putAt
    simp only [newSignature_entries]
    rfl

/-! ## Offsets in sorted order (C11) -/

theorem offsets_cons (e : dbEntry) (es : List dbEntry) :
    offsets (e :: es) = e.index.offset :: offsets es := rfl

/-- Without 32-bit wrap the walk assigns offsets that start at `c` and never decrease, and
that increase across every entry whose payload is not empty. -/
theorem normalize_loop_monotone (c : Nat) (es : List dbEntry) (h : c + byteSum es < 2 ^ 32) :
    (∀ o ∈ offsets (Header.normalize.loop c es).1, c ≤ o) ∧
    (∀ o, (offsets (Header.normalize.loop c es).1).head? = some o → o = c) ∧
    (offsets (Header.normalize.loop c es).1).Pairwise (fun x y => x ≤ y) ∧
    ((∀ e ∈ es, e.payload.bytes ≠ []) →
      (offsets (Header.normalize.loop c es).1).Pairwise (fun x y => x < y)) := by
  induction es generalizing c with
  | nil =>
    refine ⟨fun o ho => absurd ho (List.not_mem_nil _), fun o ho => ?_, List.Pairwise.nil,
      fun _ => List.Pairwise.nil⟩
    cases ho
  | cons e rest ih =>
    rw [byteSum_cons] at h
    have hsz : e.payload.size = e.payload.bytes.length := size_eq_length _ (by omega)
    have hc : (c + e.payload.size) % 2 ^ 32 = c + e.payload.bytes.length := by
      rw [hsz]
      exact Nat.mod_eq_of_lt (by omega)
    rw [normalize_loop_cons, hc]
    have key := ih (c + e.payload.bytes.length) (by omega)
    refine ⟨?_, ?_, ?_, ?_⟩
    · intro o ho
      rw [offsets_cons] at ho
      rcases List.mem_cons.1 ho with h1 | h1
      · exact h1 ▸ Nat.le_refl _
      · exact Nat.le_trans (Nat.le_add_right _ _) (key.1 o h1)
    · intro o ho
      rw [offsets_cons] at ho
      exact (Option.some.inj ho).symm
    · rw [offsets_cons]
      refine List.Pairwise.cons ?_ key.2.2.1
      intro o ho
      exact Nat.le_trans (Nat.le_add_right _ _) (key.1 o ho)
    · intro hne
      rw [offsets_cons]
      refine List.Pairwise.cons ?_ (key.2.2.2 fun x hx => hne x (List.mem_cons_of_mem _ hx))
      intro o ho
      have hpos : 0 < e.payload.bytes.length :=
        List.length_pos.2 (hne e (List.mem_cons_self _ _))
      have := key.1 o ho
      show c < o
      omega

theorem wrapTable_puts :
    Reachable wrapTable ∧ wrapTable.header.entries =
      [binaryEntry 1 (List.replicate (2 ^ 32) 0), uint32Entry 2 0] := by
  have h1 := put_of_absent emptySignature (binaryEntry 1 (List.replicate (2 ^ 32) 0))
    (fun en hen => absurd hen (List.not_mem_nil _))
  have h2 := put_of_absent (putFresh emptySignature (binaryEntry 1 (List.replicate (2 ^ 32) 0)))
    (uint32Entry 2 0) (by
      intro en hen
      rw [List.mem_singleton.1 hen]
      show (1 : Nat) ≠ 2
      decide)
  unfold wrapTable
  refine ⟨Reachable.put _ _ (Reachable.put _ _ Reachable.empty ?_) ?_, ?_⟩
  · rw [h1]
  · rw [h1, h2]
  · rw [h1, h2]
    rfl

theorem wrapTable_offsets : offsets wrapTable.header.normalize.state.entries = [0, 0] := by
  have hdef : ∀ h : Header, h.sort.entries = sortSlice Header.sort.less h.entries :=
    fun _ => rfl
  have hsort : wrapTable.header.sort.entries =
      [binaryEntry 1 (List.replicate (2 ^ 32) 0), uint32Entry 2 0] := by
    rewrite [hdef, wrapTable_puts.2]
    simp only [sortSlice, List.insertionSort, List.orderedInsert]
    rw [if_pos (by unfold notAfter Header.sort.less; show ¬ ((2 : Nat) < 1); decide)]
  rewrite [normalize_entries, hsort]
  have hb : ∀ t d, (binaryEntry t d).payload.size = d.length % 2 ^ 32 := fun _ _ => rfl
  simp only [normalize_loop_cons, normalize_loop_nil, hb, List.length_replicate, Nat.zero_add,
    Nat.mod_self, offsets, List.map_cons, List.map_nil]
  rfl

theorem wrapTable_payloads : ∀ e ∈ wrapTable.header.entries, e.payload.bytes ≠ [] := by
  intro e he
  rw [wrapTable_puts.2] at he
  rcases List.mem_cons.1 he with rfl | he
  · intro h
    have hl := congrArg List.length h
    change (List.replicate (2 ^ 32) 0).length = 0 at hl
    rw [List.length_replicate] at hl
    norm_num at hl
  · rw [List.mem_singleton.1 he]
    exact List.cons_ne_nil _ _

/-- Counterexample to C11 as stated. Two entries built by `binaryEntry` and `stringEntry`
with unique tags and empty payloads are put without panic; after `normalize` both have
offset 0, so the offsets are not strictly increasing. The same happens without an empty
payload when a payload size wraps in 32 bits: in `wrapTable` the first payload has 2^32
bytes, `size()` is 0 and both offsets are 0. -/
theorem offsets_not_strictly_increasing :
    (Reachable twoEmpty ∧ twoEmpty.header.normalize.panic = none ∧
      offsets twoEmpty.header.normalize.state.entries = [0, 0] ∧
      ¬ (offsets twoEmpty.header.normalize.state.entries).Sorted (fun x y => x < y)) ∧
    (Reachable wrapTable ∧ (∀ e ∈ wrapTable.header.entries, e.payload.bytes ≠ []) ∧
      wrapTable.header.normalize.panic = none ∧
      offsets wrapTable.header.normalize.state.entries = [0, 0] ∧
      ¬ (offsets wrapTable.header.normalize.state.entries).Sorted (fun x y => x < y)) := by
  refine ⟨⟨Reachable.put _ _ (Reachable.put _ _ Reachable.empty rfl) rfl, rfl, rfl, by decide⟩,
    wrapTable_puts.1, wrapTable_payloads,
    (normalize_panic_iff _).2 (inv_of_reachable wrapTable_puts.1).hSize, wrapTable_offsets, ?_⟩
  rw [wrapTable_offsets]
  decide

/-- C11 (amended): for every table built by non-panicking puts (hence with unique tags)
whose payloads hold fewer than 2^32 bytes in total, after one `normalize` the offsets of the
entries in sorted order start at 0 and never decrease, and they are strictly increasing when
no payload is empty. -/
theorem normalized_offsets_monotone (s : signature) (hs : Reachable s)
    (hb : byteSum s.header.entries < 2 ^ 32) :
    s.header.normalize.panic = none ∧
    (tags s.header.normalize.state.entries).Sorted (fun x y => x < y) ∧
    (∀ o, (offsets s.header.normalize.state.entries).head? = some o → o = 0) ∧
    (offsets s.header.normalize.state.entries).Sorted (fun x y => x ≤ y) ∧
    ((∀ e ∈ s.header.entries, e.payload.bytes ≠ []) →
      (offsets s.header.normalize.state.entries).Sorted (fun x y => x < y)) := by
  have hi := inv_of_reachable hs
  have key := normalize_loop_monotone 0 s.header.sort.entries
    (by rw [sort_byteSum, Nat.zero_add]; exact hb)
  rw [← normalize_entries] at key
  refine ⟨(normalize_panic_iff _).2 hi.hSize, normalize_tags_sorted _ hi.nodup, key.2.1,
    key.2.2.1, fun hne => key.2.2.2 fun e he => hne e ((sort_perm _).mem_iff.1 he)⟩

/-- Witness of C11 (amended) on `sampleTable`. -/
theorem normalized_offsets_monotone_witness :
    Reachable sampleTable ∧ byteSum sampleTable.header.entries < 2 ^ 32 ∧
    (sampleTable.header.normalize.panic = none ∧
    (tags sampleTable.header.normalize.state.entries).Sorted (fun x y => x < y) ∧
    (∀ o, (offsets sampleTable.header.normalize.state.entries).head? = some o → o = 0) ∧
    (offsets sampleTable.header.normalize.state.entries).Sorted (fun x y => x ≤ y) ∧
    ((∀ e ∈ sampleTable.header.entries, e.payload.bytes ≠ []) →
      (offsets sampleTable.header.normalize.state.entries).Sorted (fun x y => x < y))) :=
  ⟨sampleTable_reachable, by decide,
    normalized_offsets_monotone sampleTable sampleTable_reachable (by decide)⟩

/-! ## The sentinel of headerSignatures (C12) -/

theorem xor_low_ones (y : Nat) (h : y < 2 ^ 32) : y ^^^ 0xffffffff = 2 ^ 32 - 1 - y := by
  have h1 := BitVec.toNat_not (x := BitVec.ofNat 32 y)
  rw [BitVec.not_def, BitVec.toNat_xor, BitVec.toNat_allOnes, BitVec.toNat_ofNat,
    Nat.mod_eq_of_lt h] at h1
  rw [Nat.xor_comm]
  exact h1

theorem xor_mod_two_pow_32 (x m : Nat) :
    (x ^^^ m) % 2 ^ 32 = (x % 2 ^ 32) ^^^ (m % 2 ^ 32) := by
  apply Nat.eq_of_testBit_eq
  intro i
  simp only [Nat.testBit_mod_two_pow, Nat.testBit_xor]
  cases decide (i < 32) <;> simp

/-- The value `uint32(r + 1)` of `headerSignatures` is the 32-bit two's complement of `x`. -/
theorem twos_complement_32 (x : Nat) :
    uint32 ((x ^^^ 0xffffffff) + 1) = (2 ^ 32 - x % 2 ^ 32) % 2 ^ 32 := by
  have h1 : (x ^^^ 0xffffffff) % 2 ^ 32 = 2 ^ 32 - 1 - x % 2 ^ 32 := by
    rw [xor_mod_two_pow_32, Nat.mod_eq_of_lt (show 0xffffffff < 2 ^ 32 by norm_num)]
    exact xor_low_ones _ (Nat.mod_lt _ (by norm_num))
  have h2 : x % 2 ^ 32 < 2 ^ 32 := Nat.mod_lt _ (by norm_num)
  unfold uint32
  omega

theorem decode32_bigEndian32 (x : Nat) :
    decode32 (x / 2 ^ 24 % 256) (x / 2 ^ 16 % 256) (x / 2 ^ 8 % 256) (x % 256) = x % 2 ^ 32 := by
  unfold decode32
  norm_num
  omega

theorem decodeWords_bigEndian32 (x : Nat) (rest : List Nat) :
    decodeWords (bigEndian32 x ++ rest) = x % 2 ^ 32 :: decodeWords rest := by
  show decode32 (x / 2 ^ 24 % 256) (x / 2 ^ 16 % 256) (x / 2 ^ 8 % 256) (x % 256) ::
    decodeWords rest = _
  rw [decode32_bigEndian32]

theorem headerSignatures_eq (l : Nat) :
    headerSignatures l = bigEndian32 62 ++ (bigEndian32 7 ++
      (bigEndian32 ((2 ^ 32 - l * 16 % 2 ^ 32) % 2 ^ 32) ++ (bigEndian32 16 ++ []))) := by
  simp only [headerSignatures, uint32ToBytes_eq, twos_complement_32, List.nil_append,
    List.append_assoc, List.append_nil]

/-- C12: for every non-negative `l`, `headerSignatures(l)` is 16 bytes that decode as the
four big-endian 32-bit words 62, 7, `(2^32 - 16*l) mod 2^32` and 16; the third word is the
32-bit two's complement of `16*l`: added to `16*l` it gives 0 modulo 2^32. -/
theorem headerSignatures_sentinel (l : Nat) :
    (headerSignatures l).length = 16 ∧
    headerSignatures l = bigEndian32 62 ++ bigEndian32 7 ++
      bigEndian32 ((2 ^ 32 - 16 * l % 2 ^ 32) % 2 ^ 32) ++ bigEndian32 16 ∧
    decodeWords (headerSignatures l) = [62, 7, (2 ^ 32 - 16 * l % 2 ^ 32) % 2 ^ 32, 16] ∧
    (((2 ^ 32 - 16 * l % 2 ^ 32) % 2 ^ 32 : Nat) : Int) = (2 ^ 32 - 16 * (l : Int)) % 2 ^ 32 ∧
    ((2 ^ 32 - 16 * l % 2 ^ 32) % 2 ^ 32 + 16 * l) % 2 ^ 32 = 0 := by
  have he := headerSignatures_eq l
  rw [Nat.mul_comm l 16] at he
  refine ⟨?_, ?_, ?_, ?_, ?_⟩
  · rw [he]
    rfl
  · rw [he]
    simp only [List.append_nil, List.append_assoc]
  · rw [he, decodeWords_bigEndian32, decodeWords_bigEndian32, decodeWords_bigEndian32,
      decodeWords_bigEndian32]
    have h : 16 * l % 2 ^ 32 < 2 ^ 32 := Nat.mod_lt _ (by norm_num)
    simp only [decodeWords, Nat.mod_mod]
    norm_num
  · omega
  · omega

/-! ## The table newSignature returns (C13) -/

theorem newSignature_dbHeader : newSignature.state.header.dbHeader = sixPuts.header.dbHeader := by
  rewrite [newSignature_eq, normalizeHeader_header]
  exact normalize_dbHeader _

/-- C13: `newSignature()` returns without panic a table of exactly 6 entries with
`nIndex = 6`; its tags are 0x3E, 0x10D, 0x3E8, 0x3EC, 0x3EF, 0x3F0 (the stored, ascending
order) and the payloads are those of the construction sequence: the sentinel, 40 characters
`x`, the 32-bit value 0, 16 zero bytes, the 32-bit value 0 and 4096 zero bytes. The sentinel
payload of tag 0x3E is 16 bytes that decode as the big-endian words 62, 7, 4294967200, 16. -/
theorem newSignature_table :
    newSignature.panic = none ∧
    newSignature.state.header.entries.length = 6 ∧
    newSignature.state.header.dbHeader.nIndex = 6 ∧
    tags newSignature.state.header.entries = [0x3e, 0x10d, 0x3e8, 0x3ec, 0x3ef, 0x3f0] ∧
    newSignature.state.header.entries.map (fun e => e.payload) =
      [.binaryPayload (bigEndian32 62 ++ bigEndian32 7 ++ bigEndian32 4294967200 ++
          bigEndian32 16),
        .stringPayload (List.replicate 40 120), .uint32Payload 0,
        .binaryPayload (List.replicate 16 0), .uint32Payload 0,
        .binaryPayload (List.replicate 4096 0)] ∧
    (bigEndian32 62 ++ bigEndian32 7 ++ bigEndian32 4294967200 ++ bigEndian32 16).length = 16 ∧
    decodeWords (bigEndian32 62 ++ bigEndian32 7 ++ bigEndian32 4294967200 ++ bigEndian32 16) =
      [62, 7, 4294967200, 16] := by
  have hx : ascii "xxxxxxxxxxxxxxxxxxxxxxxxxxxxxxxxxxxxxxxx" = List.replicate 40 120 := by decide
  have hs : headerSignatures 6 =
      bigEndian32 62 ++ bigEndian32 7 ++ bigEndian32 4294967200 ++ bigEndian32 16 := by decide
  refine ⟨newSignature_panic, ?_, ?_, ?_, ?_, rfl, by decide⟩
  · rewrite [newSignature_entries]
    rfl
  · rewrite [newSignature_dbHeader, (inv_of_reachable sixPuts_reachable).nIndex, sixPuts_entries]
    rfl
  · rewrite [newSignature_entries]
    rfl
  · rewrite [newSignature_entries]
    simp only [List.map_cons, List.map_nil, withOffset, binaryEntry, stringEntry, uint32Entry,
      hx, hs, makeBytes]

/-! ## The byte helpers (C14) -/

/-- C14: `uint16ToBytes` and `uint32ToBytes` are big-endian: for a 16-bit `i` the result is
two bytes `[b0, b1]` with `b0 * 256 + b1 = i`, for a 32-bit `j` it is four bytes
`[b0, b1, b2, b3]` with `b0 * 2^24 + b1 * 2^16 + b2 * 2^8 + b3 = j`, and both encodings are
injective on their range. (Both functions are total: they are defined on every input.) -/
theorem bytes_big_endian (i : Nat) (hi : i < 2 ^ 16) (j : Nat) (hj : j < 2 ^ 32) :
    (∃ b0 b1, uint16ToBytes i = [b0, b1] ∧ b0 < 256 ∧ b1 < 256 ∧ b0 * 256 + b1 = i) ∧
    (∃ b0 b1 b2 b3, uint32ToBytes j = [b0, b1, b2, b3] ∧ b0 < 256 ∧ b1 < 256 ∧ b2 < 256 ∧
      b3 < 256 ∧ b0 * 2 ^ 24 + b1 * 2 ^ 16 + b2 * 2 ^ 8 + b3 = j) ∧
    (∀ k, k < 2 ^ 16 → uint16ToBytes i = uint16ToBytes k → i = k) ∧
    (∀ k, k < 2 ^ 32 → uint32ToBytes j = uint32ToBytes k → j = k) := by
  have h255 : ∀ y : Nat, y &&& 0xff = y % 256 := fun y => Nat.and_pow_two_sub_one_eq_mod y 8
  have h16 : ∀ y : Nat, uint16ToBytes y = [y / 2 ^ 8 % 256, y % 256] := by
    intro y
    simp only [uint16ToBytes, uint8, h255, Nat.shiftRight_eq_div_pow, Nat.mod_mod]
  refine ⟨⟨i / 2 ^ 8 % 256, i % 256, h16 i, ?_, ?_, ?_⟩,
    ⟨j / 2 ^ 24 % 256, j / 2 ^ 16 % 256, j / 2 ^ 8 % 256, j % 256, uint32ToBytes_eq j,
      ?_, ?_, ?_, ?_, ?_⟩, ?_, ?_⟩
  · omega
  · omega
  · norm_num at hi ⊢
    omega
  · omega
  · omega
  · omega
  · omega
  · norm_num at hj ⊢
    omega
  · intro k hk h
    rw [h16, h16] at h
    simp only [List.cons.injEq, and_true] at h
    norm_num at hi hk h
    omega
  · intro k hk h
    rw [uint32ToBytes_eq, uint32ToBytes_eq] at h
    simp only [bigEndian32, List.cons.injEq, and_true] at h
    norm_num at hj hk h
    omega

/-- Witness of C14 at 0x1234 and 0x12345678. -/
theorem bytes_big_endian_witness :
    0x1234 < 2 ^ 16 ∧ 0x12345678 < 2 ^ 32 ∧
    ((∃ b0 b1, uint16ToBytes 0x1234 = [b0, b1] ∧ b0 < 256 ∧ b1 < 256 ∧
      b0 * 256 + b1 = 0x1234) ∧
    (∃ b0 b1 b2 b3, uint32ToBytes 0x12345678 = [b0, b1, b2, b3] ∧ b0 < 256 ∧ b1 < 256 ∧
      b2 < 256 ∧ b3 < 256 ∧ b0 * 2 ^ 24 + b1 * 2 ^ 16 + b2 * 2 ^ 8 + b3 = 0x12345678) ∧
    (∀ k, k < 2 ^ 16 → uint16ToBytes 0x1234 = uint16ToBytes k → 0x1234 = k) ∧
    (∀ k, k < 2 ^ 32 → uint32ToBytes 0x12345678 = uint32ToBytes k → 0x12345678 = k)) :=
  ⟨by decide, by decide, bytes_big_endian 0x1234 (by decide) 0x12345678 (by decide)⟩

/-! ## The entry constructors (C15, C16) -/

/-- C15: for every tag and all data shorter than 2^32 bytes, `binaryEntry(tag, data)` has
index `{tag, dataType 7, count len(data)}` and a payload of size `len(data)` that writes
`data` verbatim; `uint32Entry(tag, v)` has index `{tag, dataType 4, count 1}` and a payload
of size 4 that writes `uint32ToBytes(v)`; `stringEntry(tag, s)` has index
`{tag, dataType 6, count 1}` and a payload of size `len(s)` that writes the bytes of `s` and
nothing after them. Each payload, written to a buffer (a sink that never fails), returns no
error and a byte count equal to `payload.size()`. -/
theorem entry_constructors (tag : Nat) (data : List Nat) (hd : data.length < 2 ^ 32) (v : Nat)
    (s : List Nat) (hs : s.length < 2 ^ 32) (buf : List Nat) :
    ((binaryEntry tag data).index =
        { tag := tag, dataType := 7, offset := 0, count := data.length } ∧
      (binaryEntry tag data).payload.size = data.length ∧
      (binaryEntry tag data).payload.WriteTo bufferWriter buf =
        { sink := buf ++ data, n := ((binaryEntry tag data).payload.size : Nat),
          err := none }) ∧
    ((uint32Entry tag v).index = { tag := tag, dataType := 4, offset := 0, count := 1 } ∧
      (uint32Entry tag v).payload.size = 4 ∧
      (uint32Entry tag v).payload.WriteTo bufferWriter buf =
        { sink := buf ++ uint32ToBytes v, n := ((uint32Entry tag v).payload.size : Nat),
          err := none }) ∧
    ((stringEntry tag s).index = { tag := tag, dataType := 6, offset := 0, count := 1 } ∧
      (stringEntry tag s).payload.size = s.length ∧
      (stringEntry tag s).payload.WriteTo bufferWriter buf =
        { sink := buf ++ s, n := ((stringEntry tag s).payload.size : Nat), err := none }) := by
  have h1 : uint32 data.length = data.length := Nat.mod_eq_of_lt hd
  have h2 : uint32 s.length = s.length := Nat.mod_eq_of_lt hs
  refine ⟨⟨?_, h1, ?_⟩, ⟨rfl, rfl, rfl⟩, ⟨rfl, h2, ?_⟩⟩
  · show ({ tag := tag, dataType := 7, offset := 0, count := uint32 data.length } :
      dbHeaderIndex) = _
    rw [h1]
  · rw [show (binaryEntry tag data).payload.size = data.length from h1]
    rfl
  · rw [show (stringEntry tag s).payload.size = s.length from h2]
    rfl

/-- Witness of C15 on the examples of the specification. -/
theorem entry_constructors_witness :
    (makeBytes 16).length < 2 ^ 32 ∧ (ascii "myapp-1.0.3-1").length < 2 ^ 32 ∧
    (((binaryEntry 0x3ec (makeBytes 16)).index =
        { tag := 0x3ec, dataType := 7, offset := 0, count := (makeBytes 16).length } ∧
      (binaryEntry 0x3ec (makeBytes 16)).payload.size = (makeBytes 16).length ∧
      (binaryEntry 0x3ec (makeBytes 16)).payload.WriteTo bufferWriter [] =
        { sink := [] ++ makeBytes 16,
          n := ((binaryEntry 0x3ec (makeBytes 16)).payload.size : Nat), err := none }) ∧
    ((uint32Entry 0x3ec 7).index = { tag := 0x3ec, dataType := 4, offset := 0, count := 1 } ∧
      (uint32Entry 0x3ec 7).payload.size = 4 ∧
      (uint32Entry 0x3ec 7).payload.WriteTo bufferWriter [] =
        { sink := [] ++ uint32ToBytes 7, n := ((uint32Entry 0x3ec 7).payload.size : Nat),
          err := none }) ∧
    ((stringEntry 0x3ec (ascii "myapp-1.0.3-1")).index =
        { tag := 0x3ec, dataType := 6, offset := 0, count := 1 } ∧
      (stringEntry 0x3ec (ascii "myapp-1.0.3-1")).payload.size =
        (ascii "myapp-1.0.3-1").length ∧
      (stringEntry 0x3ec (ascii "myapp-1.0.3-1")).payload.WriteTo bufferWriter [] =
        { sink := [] ++ ascii "myapp-1.0.3-1",
          n := ((stringEntry 0x3ec (ascii "myapp-1.0.3-1")).payload.size : Nat),
          err := none })) :=
  ⟨by decide, by decide,
    entry_constructors 0x3ec (makeBytes 16) (by decide) 7 (ascii "myapp-1.0.3-1") (by decide) []⟩

/-- Counterexample to C16 as stated: the String entry `stringEntry(0x3e8, "myapp-1.0.3-1")`
has count 1, while its payload is 13 bytes long. -/
theorem string_count_is_not_length :
    (stringEntry 0x3e8 (ascii "myapp-1.0.3-1")).index.count = 1 ∧
    (stringEntry 0x3e8 (ascii "myapp-1.0.3-1")).payload.bytes.length = 13 ∧
    (stringEntry 0x3e8 (ascii "myapp-1.0.3-1")).index.count ≠
      (stringEntry 0x3e8 (ascii "myapp-1.0.3-1")).payload.bytes.length :=
  ⟨rfl, by decide, by decide⟩

/-- C16 (amended): the count of the index record a typed constructor builds is the byte
length of the payload for Binary entries (`binaryEntry`, data shorter than 2^32 bytes), and
1 for String entries (`stringEntry`) and for UInt32 entries (`uint32Entry`). -/
theorem constructor_counts (tag : Nat) (data : List Nat) (hd : data.length < 2 ^ 32)
    (s : List Nat) (v : Nat) :
    (binaryEntry tag data).index.count = (binaryEntry tag data).payload.bytes.length ∧
    (stringEntry tag s).index.count = 1 ∧
    (uint32Entry tag v).index.count = 1 :=
  ⟨Nat.mod_eq_of_lt hd, rfl, rfl⟩

/-- Witness of C16 (amended). -/
theorem constructor_counts_witness :
    [1, 2, 3].length < 2 ^ 32 ∧
    ((binaryEntry 5 [1, 2, 3]).index.count = (binaryEntry 5 [1, 2, 3]).payload.bytes.length ∧
    (stringEntry 5 [104, 105]).index.count = 1 ∧
    (uint32Entry 5 9).index.count = 1) :=
  ⟨by decide, constructor_counts 5 [1, 2, 3] (by decide) [104, 105] 9⟩

/-! ## Write calls and the returned total (C17) -/

theorem traces_nil {σ : Type} (st : σ × List WriteCall) (t : Int) :
    Traces st.2 t { sink := st, n := t, err := none } :=
  ⟨[], (List.append_nil _).symm, by simp, Or.inl ⟨fun c hc => absurd hc (List.not_mem_nil _), rfl⟩⟩

/-- One `Write` call, whether it fails or not. -/
theorem traces_write {σ : Type} (w : Writer σ) (st : σ × List WriteCall) (t : Int)
    (p : List Nat) :
    Traces st.2 t { sink := ((traced w).Write st p).sink, n := t + ((traced w).Write st p).n,
                    err := ((traced w).Write st p).err } := by
  refine ⟨[{ n := (w.Write st.1 p).n, err := (w.Write st.1 p).err }], rfl, by simp [traced], ?_⟩
  by_cases h : (w.Write st.1 p).err = none
  · left
    refine ⟨?_, h⟩
    intro c hc
    rw [List.mem_singleton.1 hc]
    exact h
  · right
    exact ⟨[], _, rfl, fun x hx => absurd hx (List.not_mem_nil _), h, rfl⟩

/-- A run that returned no error, followed by a second run from where it stopped. -/
theorem traces_trans {σ : Type} (log : List WriteCall) (t : Int)
    (r1 r2 : WriteResult (σ × List WriteCall)) (h1 : Traces log t r1) (he : r1.err = none)
    (h2 : Traces r1.sink.2 r1.n r2) : Traces log t r2 := by
  rcases h1 with ⟨new1, hs1, hn1, hc1⟩
  rcases h2 with ⟨new2, hs2, hn2, hc2⟩
  have hok1 : ∀ c ∈ new1, c.err = none := by
    rcases hc1 with ⟨h, _⟩ | ⟨ok, c, _, _, hc, hr⟩
    · exact h
    · exact absurd (hr ▸ he) hc
  refine ⟨new1 ++ new2, ?_, ?_, ?_⟩
  · rw [hs2, hs1, List.append_assoc]
  · rw [hn2, hn1, List.map_append, List.sum_append]
    ring
  · rcases hc2 with ⟨h, hr⟩ | ⟨ok, c, hnew, hok, hc, hr⟩
    · left
      refine ⟨?_, hr⟩
      intro c hc
      rcases List.mem_append.1 hc with h' | h'
      · exact hok1 c h'
      · exact h c h'
    · right
      refine ⟨new1 ++ ok, c, by rw [hnew, List.append_assoc], ?_, hc, hr⟩
      intro x hx
      rcases List.mem_append.1 hx with h' | h'
      · exact hok1 x h'
      · exact hok x h'

/-- A successful `Write` call followed by a run from where it stopped. -/
theorem traces_then {σ : Type} (w : Writer σ) (st : σ × List WriteCall) (t : Int)
    (p : List Nat) (res : WriteResult (σ × List WriteCall))
    (he : ¬ ((traced w).Write st p).err.isSome = true)
    (h : Traces ((traced w).Write st p).sink.2 (t + ((traced w).Write st p).n) res) :
    Traces st.2 t res :=
  traces_trans st.2 t _ res (traces_write w st t p) (by simpa using he) h

theorem traces_of_fields {σ : Type} (log : List WriteCall) (t : Int)
    (r r2 : WriteResult (σ × List WriteCall)) (h : Traces log t r) (hs : r2.sink = r.sink)
    (hn : r2.n = r.n) (he : r2.err = r.err) : Traces log t r2 := by
  rcases h with ⟨new, h1, h2, h3⟩
  exact ⟨new, hs ▸ h1, hn ▸ h2, he ▸ h3⟩

theorem traces_dbHeader {σ : Type} (w : Writer σ) (h : dbHeader) (st : σ × List WriteCall) :
    Traces st.2 0 (h.WriteTo (traced w) st) := by
  unfold dbHeader.WriteTo
  simp only
  split_ifs with h1 h2 h3 h4
  · exact traces_write w st 0 _
  · exact traces_then w st 0 _ _ h1 (traces_write w _ _ _)
  · exact traces_then w st 0 _ _ h1 (traces_then w _ _ _ _ h2 (traces_write w _ _ _))
  · exact traces_then w st 0 _ _ h1 (traces_then w _ _ _ _ h2 (traces_then w _ _ _ _ h3
      (traces_write w _ _ _)))
  · exact traces_then w st 0 _ _ h1 (traces_then w _ _ _ _ h2 (traces_then w _ _ _ _ h3
      (traces_then w _ _ _ _ h4 (traces_write w _ _ _))))

theorem traces_indexLoop {σ : Type} (w : Writer σ) (es : List dbEntry)
    (st : σ × List WriteCall) (t : Int) :
    Traces st.2 t (signature.WriteTo.indexLoop (traced w) st t es) := by
  induction es generalizing st t with
  | nil => exact traces_nil st t
  | cons e rest ih =>
    unfold signature.WriteTo.indexLoop
    simp only
    split_ifs with h1 h2 h3 h4
    · exact traces_write w st t _
    · exact traces_then w st t _ _ h1 (traces_write w _ _ _)
    · exact traces_then w st t _ _ h1 (traces_then w _ _ _ _ h2 (traces_write w _ _ _))
    · exact traces_then w st t _ _ h1 (traces_then w _ _ _ _ h2 (traces_then w _ _ _ _ h3
        (traces_write w _ _ _)))
    · exact traces_then w st t _ _ h1 (traces_then w _ _ _ _ h2 (traces_then w _ _ _ _ h3
        (traces_then w _ _ _ _ h4 (ih _ _))))

theorem traces_payloadLoop {σ : Type} (w : Writer σ) (es : List dbEntry)
    (st : σ × List WriteCall) (t : Int) :
    Traces st.2 t (signature.WriteTo.payloadLoop (traced w) st t es) := by
  induction es generalizing st t with
  | nil => exact traces_nil st t
  | cons e rest ih =>
    unfold signature.WriteTo.payloadLoop
    simp only [dbPayload.WriteTo]
    split_ifs with h1
    · exact traces_write w st t _
    · exact traces_then w st t _ _ h1 (ih _ _)

theorem traces_signature {σ : Type} (w : Writer σ) (s : signature) (st : σ × List WriteCall) :
    Traces st.2 0 (s.WriteTo (traced w) st) := by
  have hH := traces_dbHeader w s.header.dbHeader st
  unfold signature.WriteTo
  simp only [zero_add]
  split_ifs with h1 h2 h3
  · exact hH
  · exact traces_trans _ _ _ _ hH (by simpa using h1) (traces_indexLoop w _ _ _)
  · exact traces_trans _ _ _ _ hH (by simpa using h1)
      (traces_trans _ _ _ _ (traces_indexLoop w _ _ _) (by simpa using h2)
        (traces_payloadLoop w _ _ _))
  · refine traces_trans _ _ _ _ hH (by simpa using h1)
      (traces_trans _ _ _ _ (traces_indexLoop w _ _ _) (by simpa using h2) ?_)
    have h3n : (signature.WriteTo.payloadLoop (traced w)
        (signature.WriteTo.indexLoop (traced w) (s.header.dbHeader.WriteTo (traced w) st).sink
          (s.header.dbHeader.WriteTo (traced w) st).n s.header.entries).sink
        (signature.WriteTo.indexLoop (traced w) (s.header.dbHeader.WriteTo (traced w) st).sink
          (s.header.dbHeader.WriteTo (traced w) st).n s.header.entries).n
        s.header.entries).err = none := by simpa using h3
    exact traces_of_fields _ _ _ _ (traces_payloadLoop w _ _ _) rfl rfl h3n.symm

theorem traced_dbHeader {σ : Type} (w : Writer σ) (h : dbHeader) (st : σ)
    (log : List WriteCall) :
    (h.WriteTo (traced w) (st, log)).sink.1 = (h.WriteTo w st).sink ∧
    (h.WriteTo (traced w) (st, log)).n = (h.WriteTo w st).n ∧
    (h.WriteTo (traced w) (st, log)).err = (h.WriteTo w st).err := by
  unfold dbHeader.WriteTo
  simp only [traced]
  split_ifs <;> exact ⟨rfl, rfl, rfl⟩

theorem traced_indexLoop {σ : Type} (w : Writer σ) (es : List dbEntry)
    (st2 : σ × List WriteCall) (st : σ) (t2 t : Int) (hs : st2.1 = st) (ht : t2 = t) :
    (signature.WriteTo.indexLoop (traced w) st2 t2 es).sink.1 =
      (signature.WriteTo.indexLoop w st t es).sink ∧
    (signature.WriteTo.indexLoop (traced w) st2 t2 es).n =
      (signature.WriteTo.indexLoop w st t es).n ∧
    (signature.WriteTo.indexLoop (traced w) st2 t2 es).err =
      (signature.WriteTo.indexLoop w st t es).err := by
  subst hs ht
  induction es generalizing st2 t2 with
  | nil => exact ⟨rfl, rfl, rfl⟩
  | cons e rest ih =>
    unfold signature.WriteTo.indexLoop
    simp only [traced]
    split_ifs
    · exact ⟨rfl, rfl, rfl⟩
    · exact ⟨rfl, rfl, rfl⟩
    · exact ⟨rfl, rfl, rfl⟩
    · exact ⟨rfl, rfl, rfl⟩
    · exact ih _ _

theorem traced_payloadLoop {σ : Type} (w : Writer σ) (es : List dbEntry)
    (st2 : σ × List WriteCall) (st : σ) (t2 t : Int) (hs : st2.1 = st) (ht : t2 = t) :
    (signature.WriteTo.payloadLoop (traced w) st2 t2 es).sink.1 =
      (signature.WriteTo.payloadLoop w st t es).sink ∧
    (signature.WriteTo.payloadLoop (traced w) st2 t2 es).n =
      (signature.WriteTo.payloadLoop w st t es).n ∧
    (signature.WriteTo.payloadLoop (traced w) st2 t2 es).err =
      (signature.WriteTo.payloadLoop w st t es).err := by
  subst hs ht
  induction es generalizing st2 t2 with
  | nil => exact ⟨rfl, rfl, rfl⟩
  | cons e rest ih =>
    unfold signature.WriteTo.payloadLoop
    simp only [traced, dbPayload.WriteTo]
    split_ifs
    · exact ⟨rfl, rfl, rfl⟩
    · exact ih _ _

/-- The recording writer does not change the run: `signature.WriteTo` leaves the same writer
and returns the same count and error with `traced w` as with `w`. -/
theorem traced_signature {σ : Type} (w : Writer σ) (s : signature) (st : σ)
    (log : List WriteCall) :
    (s.WriteTo (traced w) (st, log)).sink.1 = (s.WriteTo w st).sink ∧
    (s.WriteTo (traced w) (st, log)).n = (s.WriteTo w st).n ∧
    (s.WriteTo (traced w) (st, log)).err = (s.WriteTo w st).err := by
  have hH := traced_dbHeader w s.header.dbHeader st log
  have hI := traced_indexLoop w s.header.entries _ _ _ _ hH.1 hH.2.1
  have hP := traced_payloadLoop w s.header.entries _ _ _ _ hI.1 hI.2.1
  unfold signature.WriteTo
  simp only [zero_add]
  by_cases h1 : (s.header.dbHeader.WriteTo w st).err.isSome = true
  · rw [if_pos h1, if_pos (hH.2.2 ▸ h1)]
    exact hH
  · rw [if_neg h1, if_neg (hH.2.2 ▸ h1)]
    by_cases h2 : (signature.WriteTo.indexLoop w (s.header.dbHeader.WriteTo w st).sink
        (s.header.dbHeader.WriteTo w st).n s.header.entries).err.isSome = true
    · rw [if_pos h2, if_pos (hI.2.2 ▸ h2)]
      exact hI
    · rw [if_neg h2, if_neg (hI.2.2 ▸ h2)]
      by_cases h3 : (signature.WriteTo.payloadLoop w
          (signature.WriteTo.indexLoop w (s.header.dbHeader.WriteTo w st).sink
            (s.header.dbHeader.WriteTo w st).n s.header.entries).sink
          (signature.WriteTo.indexLoop w (s.header.dbHeader.WriteTo w st).sink
            (s.header.dbHeader.WriteTo w st).n s.header.entries).n
          s.header.entries).err.isSome = true
      · rw [if_pos h3, if_pos (hP.2.2 ▸ h3)]
        exact hP
      · rw [if_neg h3, if_neg (hP.2.2 ▸ h3)]
        exact ⟨hP.1, hP.2.1, rfl⟩

/-- C17: for every table and every sink, `signature.WriteTo` returns a total equal to the
sum of the byte counts returned by all the `Write` calls it performed, the failing one
included. Either every call succeeded and it returns no error, or every call but the last
succeeded and it returns the error of that last call: the first failing `Write` is the last
one performed. The calls are those recorded by `traced w`, which runs exactly as `w`. -/
theorem WriteTo_total_of_writes {σ : Type} (w : Writer σ) (st : σ) (s : signature) :
    (s.WriteTo w st).n = ((s.WriteTo (traced w) (st, [])).sink.2.map fun c => c.n).sum ∧
    (((∀ c ∈ (s.WriteTo (traced w) (st, [])).sink.2, c.err = none) ∧
        (s.WriteTo w st).err = none) ∨
      ∃ ok c, (s.WriteTo (traced w) (st, [])).sink.2 = ok ++ [c] ∧
        (∀ x ∈ ok, x.err = none) ∧ c.err ≠ none ∧ (s.WriteTo w st).err = c.err) ∧
    (s.WriteTo (traced w) (st, [])).sink.1 = (s.WriteTo w st).sink ∧
    (s.WriteTo (traced w) (st, [])).n = (s.WriteTo w st).n ∧
    (s.WriteTo (traced w) (st, [])).err = (s.WriteTo w st).err := by
  have ha := traced_signature w s st []
  rcases traces_signature w s (st, []) with ⟨new, h1, h2, h3⟩
  rw [List.nil_append] at h1
  rw [zero_add] at h2
  rw [← ha.2.1, ← ha.2.2, h1]
  exact ⟨h2, h3, ha.1, rfl, rfl⟩

/-- A run of C17 that fails: with the writer that fails at its fourth call, `WriteTo` of
`sampleTable` makes four calls that return 3, 1, 4 and 3 bytes, returns the total 11 and the
error of the fourth call. -/
theorem WriteTo_failing_run :
    (sampleTable.WriteTo (traced (failingAt 3)) (0, [])).sink.2 =
      [{ n := 3, err := none }, { n := 1, err := none }, { n := 4, err := none },
        { n := 3, err := some "short write" }] ∧
    (sampleTable.WriteTo (failingAt 3) 0).n = 11 ∧
    (sampleTable.WriteTo (failingAt 3) 0).err = some "short write" := by
  decide

/-! ## The name-version-release field of the lead (C18) -/

/-- Every name-version-release string longer than 66 bytes is refused before any `Write`:
`pkg.WriteTo` returns an error and the count 0 and leaves the sink as it was. -/
theorem pkg_rejects_over_66 {σ : Type} (p : pkg) (w : Writer σ) (st : σ)
    (h : 66 < (nameVersionRelease p).length) :
    (p.WriteTo w st).err ≠ none ∧ (p.WriteTo w st).n = 0 ∧ (p.WriteTo w st).sink = st := by
  have hneg : (66 : Int) - ((nameVersionRelease p).length : Int) < 0 := by omega
  unfold nameVersionRelease at hneg
  unfold pkg.WriteTo
  simp only
  rw [if_pos hneg]
  exact ⟨Option.some_ne_none _, rfl, rfl⟩

/-- A name-version-release string of at most 66 bytes written into a buffer: the string,
padded with zero bytes to 66 bytes. -/
theorem pkg_WriteTo_buffer (p : pkg) (buf : List Nat) (h : (nameVersionRelease p).length ≤ 66) :
    p.WriteTo bufferWriter buf =
      { sink := buf ++ nameVersionRelease p ++ makeBytes (66 - (nameVersionRelease p).length),
        n := 66, err := none } := by
  have hneg : ¬ (66 : Int) - ((nameVersionRelease p).length : Int) < 0 := by omega
  have hpad : ((66 : Int) - ((nameVersionRelease p).length : Int)).toNat =
      66 - (nameVersionRelease p).length := by omega
  unfold nameVersionRelease at hneg
  unfold pkg.WriteTo
  simp only
  rw [if_neg hneg]
  show WriteResult.mk
      (buf ++ nameVersionRelease p ++
        makeBytes ((66 : Int) - ((nameVersionRelease p).length : Int)).toNat)
      (((nameVersionRelease p).length : Int) +
        ((makeBytes ((66 : Int) - ((nameVersionRelease p).length : Int)).toNat).length : Nat))
      none = _
  rw [hpad]
  congr 1
  unfold makeBytes
  rw [List.length_replicate]
  omega

/-- The writer accepts a name-version-release string exactly when it has at most 66 bytes. -/
theorem pkg_accepted_iff (p : pkg) (buf : List Nat) :
    (p.WriteTo bufferWriter buf).err = none ↔ (nameVersionRelease p).length ≤ 66 := by
  constructor
  · intro h
    by_contra hlt
    exact (pkg_rejects_over_66 p bufferWriter buf (by omega)).1 h
  · intro h
    rw [pkg_WriteTo_buffer p buf h]

/-- C18, the code at the failing input: the name-version-release string of `pkg66` has 66
bytes, and `pkg.WriteTo` into an empty buffer returns no error and the count 66 and leaves
the 66 bytes of the string, without a zero byte after them, in the sink. -/
theorem pkg_accepts_66_bytes :
    (nameVersionRelease pkg66).length = 66 ∧
    (pkg66.WriteTo bufferWriter []).err = none ∧
    (pkg66.WriteTo bufferWriter []).n = 66 ∧
    (pkg66.WriteTo bufferWriter []).sink = nameVersionRelease pkg66 := by
  have hl : (nameVersionRelease pkg66).length = 66 := by decide
  rw [pkg_WriteTo_buffer pkg66 [] (Nat.le_of_eq hl), hl]
  exact ⟨rfl, rfl, rfl, by simp [makeBytes]⟩

/-! ## The length of the lead (C19, C20) -/

theorem magic_WriteTo_buffer (m buf : List Nat) :
    magic.WriteTo m bufferWriter buf = { sink := buf ++ m, n := m.length, err := none } := rfl

theorem reserved_WriteTo_buffer (r buf : List Nat) :
    reserved.WriteTo r bufferWriter buf = { sink := buf ++ r, n := r.length, err := none } := rfl

theorem leadVersion_WriteTo_buffer (v : leadVersion) (buf : List Nat) :
    v.WriteTo bufferWriter buf = { sink := buf ++ [v.major, v.minor], n := 2, err := none } := rfl

theorem pkgType_WriteTo_buffer (x : Nat) (buf : List Nat) :
    pkgType.WriteTo x bufferWriter buf = { sink := buf ++ twoBytes x, n := 2, err := none } := rfl

theorem arch_WriteTo_buffer (x : Nat) (buf : List Nat) :
    arch.WriteTo x bufferWriter buf = { sink := buf ++ twoBytes x, n := 2, err := none } := rfl

theorem osys_WriteTo_buffer (x : Nat) (buf : List Nat) :
    osys.WriteTo x bufferWriter buf = { sink := buf ++ twoBytes x, n := 2, err := none } := rfl

theorem sigtype_WriteTo_buffer (x : Nat) (buf : List Nat) :
    sigtype.WriteTo x bufferWriter buf = { sink := buf ++ twoBytes x, n := 2, err := none } := rfl

/-- A lead whose name-version-release string has at most 66 bytes, written into a buffer. -/
theorem Lead_WriteTo_buffer (l : Lead) (buf : List Nat)
    (h : (nameVersionRelease l.pkg).length ≤ 66) :
    l.WriteTo bufferWriter buf =
      { sink := buf ++ l.magic ++ [l.leadVersion.major, l.leadVersion.minor] ++
          twoBytes l.pkgType ++ twoBytes l.arch ++ nameVersionRelease l.pkg ++
          makeBytes (66 - (nameVersionRelease l.pkg).length) ++ twoBytes l.os ++
          twoBytes l.sigtype ++ l.reserved,
        n := ((l.magic.length + 76 + l.reserved.length : Nat) : Int),
        err := none } := by
  unfold Lead.WriteTo
  simp only [Lead.WriteTo.loop, magic_WriteTo_buffer, reserved_WriteTo_buffer,
    leadVersion_WriteTo_buffer, pkgType_WriteTo_buffer, arch_WriteTo_buffer,
    osys_WriteTo_buffer, sigtype_WriteTo_buffer, pkg_WriteTo_buffer l.pkg _ h,
    WriteResult.mk.injEq, and_true, true_and]
  push_cast
  ring

theorem fixedFields_option (o : LeadOption) (ho : IsOption o) (l : Lead) (hl : FixedFields l) :
    FixedFields (o l) := by
  cases ho with
  | package name version release => exact ⟨hl.magic, hl.leadVersion, hl.os, hl.sigtype, hl.reserved⟩
  | bin => exact ⟨hl.magic, hl.leadVersion, hl.os, hl.sigtype, hl.reserved⟩
  | src => exact ⟨hl.magic, hl.leadVersion, hl.os, hl.sigtype, hl.reserved⟩
  | arch a => exact ⟨hl.magic, hl.leadVersion, hl.os, hl.sigtype, hl.reserved⟩

theorem fixedFields_foldl (opts : List LeadOption) (hopts : ∀ o ∈ opts, IsOption o) (l : Lead)
    (hl : FixedFields l) : FixedFields (opts.foldl (fun l o => o l) l) := by
  induction opts generalizing l with
  | nil => exact hl
  | cons o rest ih =>
    exact ih (fun x hx => hopts x (List.mem_cons_of_mem _ hx)) (o l)
      (fixedFields_option o (hopts o (List.mem_cons_self _ _)) l hl)

theorem fixedFields_NewLead (opts : List LeadOption) (hopts : ∀ o ∈ opts, IsOption o) :
    FixedFields (NewLead opts) :=
  fixedFields_foldl opts hopts _ ⟨rfl, rfl, rfl, rfl, rfl⟩

theorem sampleOptions_are_options : ∀ o ∈ sampleOptions, IsOption o := by
  intro o ho
  rcases List.mem_cons.1 ho with rfl | ho
  · exact IsOption.package _ _ _
  rcases List.mem_cons.1 ho with rfl | ho
  · exact IsOption.src
  rcases List.mem_cons.1 ho with rfl | ho
  · exact IsOption.arch _
  · exact absurd ho (List.not_mem_nil _)

/-- C19: for every Lead built by `NewLead` with any combination of the options `Package`,
`Bin`, `Src` and `Arch` whose name-version-release string the writer accepts (`pkg.WriteTo`
returns no error), `Lead.WriteTo` into an empty buffer (a sink that never fails) returns no
error and the count 96, and the buffer then holds exactly 96 bytes: 4 of magic, 2 of version,
2 of type, 2 of arch, the name padded with zero bytes to 66, 2 of os, 2 of signature type and
16 reserved. -/
theorem Lead_writes_96_bytes (opts : List LeadOption) (hopts : ∀ o ∈ opts, IsOption o)
    (hacc : ((NewLead opts).pkg.WriteTo bufferWriter []).err = none) :
    ((NewLead opts).WriteTo bufferWriter []).err = none ∧
    ((NewLead opts).WriteTo bufferWriter []).n = 96 ∧
    ((NewLead opts).WriteTo bufferWriter []).sink.length = 96 ∧
    ((NewLead opts).WriteTo bufferWriter []).sink =
      [0xed, 0xab, 0xee, 0xdb] ++ [3, 0] ++ twoBytes (NewLead opts).pkgType ++
        twoBytes (NewLead opts).arch ++
        (nameVersionRelease (NewLead opts).pkg ++
          makeBytes (66 - (nameVersionRelease (NewLead opts).pkg).length)) ++
        twoBytes LINUX ++ twoBytes HeaderStyle ++ makeBytes 16 ∧
    (nameVersionRelease (NewLead opts).pkg ++
      makeBytes (66 - (nameVersionRelease (NewLead opts).pkg).length)).length = 66 := by
  have hf := fixedFields_NewLead opts hopts
  have hlen : (nameVersionRelease (NewLead opts).pkg).length ≤ 66 :=
    (pkg_accepted_iff _ []).1 hacc
  have hpad : (nameVersionRelease (NewLead opts).pkg ++
      makeBytes (66 - (nameVersionRelease (NewLead opts).pkg).length)).length = 66 := by
    rw [List.length_append]
    unfold makeBytes
    rw [List.length_replicate]
    omega
  rw [Lead_WriteTo_buffer _ [] hlen, hf.magic, hf.leadVersion, hf.os, hf.sigtype, hf.reserved]
  refine ⟨rfl, rfl, ?_, ?_, hpad⟩
  · simp only [List.nil_append, List.length_append, List.length_cons, List.length_nil, twoBytes,
      makeBytes, List.length_replicate]
    omega
  · simp only [List.nil_append, List.append_assoc]

/-- Witness of C19 on the options of a source package. -/
theorem Lead_writes_96_bytes_witness :
    (∀ o ∈ sampleOptions, IsOption o) ∧
    ((NewLead sampleOptions).pkg.WriteTo bufferWriter []).err = none ∧
    (((NewLead sampleOptions).WriteTo bufferWriter []).err = none ∧
    ((NewLead sampleOptions).WriteTo bufferWriter []).n = 96 ∧
    ((NewLead sampleOptions).WriteTo bufferWriter []).sink.length = 96 ∧
    ((NewLead sampleOptions).WriteTo bufferWriter []).sink =
      [0xed, 0xab, 0xee, 0xdb] ++ [3, 0] ++ twoBytes (NewLead sampleOptions).pkgType ++
        twoBytes (NewLead sampleOptions).arch ++
        (nameVersionRelease (NewLead sampleOptions).pkg ++
          makeBytes (66 - (nameVersionRelease (NewLead sampleOptions).pkg).length)) ++
        twoBytes LINUX ++ twoBytes HeaderStyle ++ makeBytes 16 ∧
    (nameVersionRelease (NewLead sampleOptions).pkg ++
      makeBytes (66 - (nameVersionRelease (NewLead sampleOptions).pkg).length)).length = 66) :=
  ⟨sampleOptions_are_options, by decide,
    Lead_writes_96_bytes sampleOptions sampleOptions_are_options (by decide)⟩

/-- C20, the code at the failing input: for the lead of `TestWriteLeadVsGnuFile`,
`NewLead(Package("myapp", "1.0.3", "1"), Bin(), Arch(I386x8664))`, `Lead.WriteTo` into an
empty buffer returns no error and the count 96, not 95, and the buffer then holds 96 bytes. -/
theorem testLead_writes_96_not_95 :
    (testLead.WriteTo bufferWriter []).err = none ∧
    (testLead.WriteTo bufferWriter []).n = 96 ∧
    (testLead.WriteTo bufferWriter []).sink.length = 96 ∧
    (testLead.WriteTo bufferWriter []).n ≠ 95 ∧
    (testLead.WriteTo bufferWriter []).sink.length ≠ 95 := by
  decide

end head
